import Mathlib

/-!
Verification of the AGNT0 workflow runtime core: a shallow embedding of the
DAG validator (RuntimeEngine.validateDAG), the per-execution scheduler
(DAGRunner), the node dispatcher, and the persistence layer (Database),
together with theorems settling the specified properties.

Node values cross node boundaries as heterogeneous JSON-like data; effectful
node kinds (agent, tool, condition, transform, code, http) evaluate user
expressions or perform I/O, which the embedding abstracts as an oracle
parameter mapping (node, input) to a result.  Pure node kinds (input, output,
loop, parallel, merge, prompt) are embedded directly from the source.
-/

namespace AGNT

/-- JSON-like runtime value, including a distinguished JavaScript
undefined (returned e.g. by a map lookup miss). -/
inductive Value where
  | undef : Value
  | null : Value
  | bool : Bool → Value
  | num : Int → Value
  | str : String → Value
  | list : List Value → Value
  | obj : List (String × Value) → Value
  deriving Repr

/-- The closed set of node kinds. -/
inductive NodeType where
  | input | output | agent | tool | condition | loop | parallel
  | merge | transform | prompt | code | http | sensor
  deriving Repr, DecidableEq

/-- Loop node configuration (node.data.loopConfig). -/
structure LoopConfig where
  count : Option Nat := none
  condition : Option String := none
  items : Option String := none
  deriving Repr, DecidableEq

/-- The kind-specific data record of a node; only the fields consulted by the
pure dispatcher branches are carried, the rest sit behind the oracle. -/
structure NodeData where
  loopType : Option String := none
  loopConfig : Option LoopConfig := none
  promptTemplate : Option String := none
  varList : Option (List String) := none
  condition : Option String := none
  transform : Option String := none
  toolId : Option String := none
  deriving Repr, DecidableEq

/-- A workflow node. -/
structure DAGNode where
  id : String
  type : NodeType
  label : String := ""
  data : NodeData := {}
  deriving Repr, DecidableEq

/-- A directed edge between two nodes. -/
structure DAGEdge where
  id : String := ""
  source : String
  target : String
  deriving Repr, DecidableEq

/-- A workflow: a named DAG with persistence timestamps. -/
structure Workflow where
  id : String := ""
  name : String := ""
  nodes : List DAGNode
  edges : List DAGEdge
  createdAt : String := ""
  updatedAt : String := ""
  deriving Repr, DecidableEq

/-- The list of node identifiers (the validator's nodeIds set). -/
def nodeIdList (nodes : List DAGNode) : List String :=
  nodes.map (fun n => n.id)

/-- Reference-integrity pass of RuntimeEngine.validateDAG: for every edge,
both endpoints must be known node ids; the first violation is reported,
source checked before target. -/
def checkEdges (ids : List String) : List DAGEdge → Except String Unit
  | [] => .ok ()
  | e :: rest =>
    if e.source ∈ ids then
      if e.target ∈ ids then checkEdges ids rest
      else .error ("Edge references non-existent target node: " ++ e.target)
    else .error ("Edge references non-existent source node: " ++ e.source)

/-- Forward adjacency: targets of the edges leaving a node, in edge order. -/
def adjacency (edges : List DAGEdge) (n : String) : List String :=
  (edges.filter (fun e => e.source == n)).map (fun e => e.target)

/-- Incoming-edge sources of a node, in edge order (reverseAdjacencyList). -/
def upstreamList (edges : List DAGEdge) (n : String) : List String :=
  (edges.filter (fun e => e.target == n)).map (fun e => e.source)

/-- In-degree of a node: its number of incoming edges. -/
def inDeg (edges : List DAGEdge) (n : String) : Nat :=
  (edges.filter (fun e => e.target == n)).length

/-- One step of the neighbor loop of the validator's depth-first search
(hasCycle).  The recursive visit of an unvisited neighbor is supplied as the
function argument, which the caller instantiates at one fuel less. -/
def dfsNeighbors
    (visit : List String → List String → String → Option (Bool × List String)) :
    List String → List String → List String → Option (Bool × List String)
  | visited, _, [] => some (false, visited)
  | visited, stack, v :: rest =>
    if v ∈ visited then
      if v ∈ stack then some (true, visited)
      else dfsNeighbors visit visited stack rest
    else
      match visit visited stack v with
      | none => none
      | some (true, vis) => some (true, vis)
      | some (false, vis) => dfsNeighbors visit vis stack rest

/-- The validator's recursive hasCycle: mark the node visited, push it on the
recursion stack, scan its neighbors; a neighbor on the stack is a back edge.
Fuel bounds the recursion depth (the source recursion is bounded by the
number of unvisited nodes); none signals fuel exhaustion. -/
def dfsVisit (adj : String → List String) :
    Nat → List String → List String → String → Option (Bool × List String)
  | 0, _, _, _ => none
  | f + 1, visited, stack, n =>
    dfsNeighbors (dfsVisit adj f) (n :: visited) (n :: stack) (adj n)

/-- The validator's outer loop: run the DFS from every not-yet-visited node. -/
def validateCyclesGo (adj : String → List String) (fuel : Nat) :
    List DAGNode → List String → Except String Unit
  | [], _ => .ok ()
  | node :: rest, visited =>
    if node.id ∈ visited then validateCyclesGo adj fuel rest visited
    else
      match dfsVisit adj fuel visited [] node.id with
      | none => .error ("DFS fuel exhausted")
      | some (true, _) => .error ("DAG contains a cycle")
      | some (false, vis) => validateCyclesGo adj fuel rest vis

/-- RuntimeEngine.validateDAG: reference-integrity check, then cycle
detection by depth-first search with a visit set and a recursion stack.
Throws (models as Except.error) on the first violation. -/
def validateDAG (nodes : List DAGNode) (edges : List DAGEdge) : Except String Unit := do
  checkEdges (nodeIdList nodes) edges
  validateCyclesGo (adjacency edges) (nodes.length + 1) nodes []

/-- Lookup in a JavaScript-object-like association list (first match). -/
def objGet (o : List (String × Value)) (k : String) : Option Value :=
  (o.find? (fun p => p.1 == k)).map (fun p => p.2)

/-- JavaScript object / Map assignment: overwrite in place if the key exists,
else append.  Later insertions win key collisions. -/
def objSet (o : List (String × Value)) (k : String) (v : Value) : List (String × Value) :=
  if o.any (fun p => p.1 == k) then
    o.map (fun p => if p.1 == k then (k, v) else p)
  else o ++ [(k, v)]

mutual

/-- JavaScript String(v) coercion, as the prompt node applies it. -/
def jsToString : Value → String
  | .undef => "undefined"
  | .null => "null"
  | .bool true => "true"
  | .bool false => "false"
  | .num n => toString n
  | .str s => s
  | .list xs => jsToStringList xs
  | .obj _ => "[object Object]"

/-- Array stringification: elements joined by commas; Array.prototype.join
renders null and undefined elements as empty strings. -/
def jsToStringList : List Value → String
  | [] => ""
  | [Value.undef] => ""
  | [Value.null] => ""
  | [v] => jsToString v
  | Value.undef :: rest => "," ++ jsToStringList rest
  | Value.null :: rest => "," ++ jsToStringList rest
  | v :: rest => jsToString v ++ "," ++ jsToStringList rest

end

/-- DAGRunner.executeLoopNode: the for branch emits count records, the
forEach branch echoes the elements; no other loopType (in particular while)
has a branch, so the result list stays empty.  The stopped flag short-cuts
every iteration. -/
def executeLoopNode (stopped : Bool) (data : NodeData) (input : Value) : Value :=
  let lt := match data.loopType with
    | none => "for"
    | some s => if s = "" then "for" else s
  let cfg := data.loopConfig.getD {}
  if lt = "for" then
    let count := match cfg.count with
      | none => 1
      | some c => if c = 0 then 1 else c
    Value.list (if stopped then [] else
      (List.range count).map (fun i => Value.obj [("index", Value.num (Int.ofNat i)), ("input", input)]))
  else if lt = "forEach" then
    let items := match input with
      | Value.list xs => xs
      | v => [v]
    Value.list (if stopped then [] else items)
  else
    Value.list []

/-- One-level flattening of a JavaScript array (Array.prototype.flat). -/
def jsFlatten1 : List Value → List Value
  | [] => []
  | Value.list xs :: rest => xs ++ jsFlatten1 rest
  | v :: rest => v :: jsFlatten1 rest

/-- DAGRunner.executeMergeNode: flatten one level if the input is an array,
else pass it through. -/
def executeMergeNode (inputs : Value) : Value :=
  match inputs with
  | Value.list xs => Value.list (jsFlatten1 xs)
  | v => v

/-- DAGRunner.executeParallelNode: wrap a non-array input, pass an array
through (the Promise.all over already-resolved items). -/
def executeParallelNode (input : Value) : Value :=
  match input with
  | Value.list xs => Value.list xs
  | v => Value.list [v]

/-- The RegExp compilation of executePromptNode's variable-substitution
loop: new RegExp over the pattern built from a user-supplied variable name
throws a SyntaxError synchronously when the name is not valid inside a
regular expression (for example a lone parenthesis).  JS regex syntax is
not reproduced here, so — like the new Function evaluations behind the
oracle — the compile step is a parameter: ok when the name's pattern
compiles, otherwise the thrown SyntaxError message. -/
def RegexCompile : Type := String → Except String Unit

/-- DAGRunner.executePromptNode: substitute the stringified input for the
input placeholder, then, for an object (or array) input, substitute each
declared variable name from the input record, missing values rendering as
the empty string (String(value ?? '')).  Each iteration first compiles
new RegExp over the variable's pattern, which can throw: the node then
fails synchronously with the SyntaxError. -/
def executePromptNode (rex : RegexCompile) (data : NodeData) (input : Value) :
    Except String Value :=
  let template := match data.promptTemplate with
    | none => "\x7b\x7binput\x7d\x7d"
    | some s => if s = "" then "\x7b\x7binput\x7d\x7d" else s
  let vars := data.varList.getD []
  let t1 := template.replace ("\x7b\x7binput\x7d\x7d") (jsToString input)
  let substOne := fun (fields : List (String × Value)) (acc : String) (v : String) =>
    let value := (objGet fields v).getD Value.undef
    let rendered := match value with
      | Value.undef => ""
      | Value.null => ""
      | w => jsToString w
    acc.replace ("\x7b\x7b" ++ v ++ "\x7d\x7d") rendered
  let go : List (String × Value) → Except String String := fun fields =>
    vars.foldlM (fun acc v =>
      match rex v with
      | .error e => .error e
      | .ok _ => .ok (substOne fields acc v)) t1
  match input with
  | Value.obj fields => (go fields).map Value.str
  | Value.list _ => (go []).map Value.str
  | _ => .ok (Value.str t1)

/-- DAGRunner.gatherInputs label fallback: the upstream node's display label,
or its id when the node is unknown or its label is empty. -/
def labelOrId (nodes : List DAGNode) (uid : String) : String :=
  match nodes.find? (fun m => m.id == uid) with
  | some m => if m.label = "" then uid else m.label
  | none => uid

/-- DAGRunner.gatherInputs: no upstream yields the execution input, a single
upstream yields its recorded output verbatim, several upstreams yield an
object keyed by upstream label (falling back to id), later insertions
winning collisions. -/
def gatherInputs (w : Workflow) (outputs : List (String × Value)) (execInput : Value)
    (n : DAGNode) : Value :=
  match upstreamList w.edges n.id with
  | [] => execInput
  | [u] => (objGet outputs u).getD Value.undef
  | us =>
    Value.obj (us.foldl
      (fun acc uid => objSet acc (labelOrId w.nodes uid) ((objGet outputs uid).getD Value.undef)) [])

/-- Runner event stream entries (node:start, node:complete, node:error). -/
inductive Event where
  | nodeStart : String → NodeType → Event
  | nodeComplete : String → Value → Event
  | nodeError : String → String → Event
  deriving Repr

/-- The effectful part of the dispatcher: expression evaluation and I/O of
agent, tool, condition, transform, code and http nodes, abstracted as a
function from node and gathered input to result. -/
def Oracle : Type := DAGNode → Value → Except String Value

/-- The dispatch switch of DAGRunner.executeNode: pure kinds are computed
directly, effectful kinds consult the oracle, the prompt kind runs the
fallible substitution, unknown kinds pass the gathered input through (the
default case). -/
def dispatchNode (d : Oracle) (rex : RegexCompile) (execInput : Value) (node : DAGNode)
    (inputs : Value) : Except String Value :=
  match node.type with
  | .input => .ok execInput
  | .output => .ok inputs
  | .agent => d node inputs
  | .tool => d node inputs
  | .condition => d node inputs
  | .loop => .ok (executeLoopNode false node.data inputs)
  | .parallel => .ok (executeParallelNode inputs)
  | .merge => .ok (executeMergeNode inputs)
  | .transform => d node inputs
  | .prompt => executePromptNode rex node.data inputs
  | .code => d node inputs
  | .http => d node inputs
  | .sensor => .ok inputs

/-- The dispatcher branches of executeNode that never await: input, output,
merge, prompt and the default (sensor) case run to settlement inside the
synchronous prefix of the batch's map call, while the remaining kinds are
awaited and settle only after every batch member has started. -/
def syncKind : NodeType → Bool
  | .input => true
  | .output => true
  | .merge => true
  | .prompt => true
  | .sensor => true
  | _ => false

/-- The settled outcome of one executeNode call within a batch: the node, its
result, and whether the call took the skip path (output already recorded,
e.g. a pre-seeded input node) which emits no events. -/
structure NodeResult where
  node : DAGNode
  result : Except String Value
  skipped : Bool

/-- Dispatch a batch against the output table as of batch start (the
gatherInputs of every batch member runs in its synchronous prefix, and batch
members are never adjacent, so the snapshot view is exact). -/
def batchCompute (d : Oracle) (rex : RegexCompile) (w : Workflow) (execInput : Value)
    (outputs : List (String × Value)) (batch : List DAGNode) : List NodeResult :=
  batch.map (fun n =>
    match objGet outputs n.id with
    | some v => ⟨n, .ok v, true⟩
    | none => ⟨n, dispatchNode d rex execInput n (gatherInputs w outputs execInput n), false⟩)

/-- The settlement event of a non-skipped batch member: node:complete with
its output, or node:error with the thrown message. -/
def settleEvent (r : NodeResult) : Event :=
  match r.result with
  | .ok v => Event.nodeComplete r.node.id v
  | .error e => Event.nodeError r.node.id e

/-- Events of the batch's synchronous prefix, in batch order: every
non-skipped member emits node:start, and a member of a synchronous kind
settles right there — node:complete, or node:error when its branch throws
(the prompt node's new RegExp) — before the next member's node:start.
Skipped members emit nothing. -/
def batchPrefixEvents : List NodeResult → List Event
  | [] => []
  | r :: rest =>
    (if r.skipped then []
     else if syncKind r.node.type then
       [Event.nodeStart r.node.id r.node.type, settleEvent r]
     else [Event.nodeStart r.node.id r.node.type]) ++ batchPrefixEvents rest

/-- Settlement events of the awaited kinds: they land after the whole
synchronous prefix, in batch order. -/
def batchAsyncEvents (rs : List NodeResult) : List Event :=
  (rs.filter (fun r => !r.skipped && !syncKind r.node.type)).map settleEvent

/-- Record the outputs of the successfully dispatched batch members in the
output table (the nodeOutputs.set in executeNode's success path). -/
def applyOutputs (outputs : List (String × Value)) (rs : List NodeResult) :
    List (String × Value) :=
  rs.foldl (fun acc r =>
    match r.result with
    | .ok v => if r.skipped then acc else objSet acc r.node.id v
    | .error _ => acc) outputs

/-- Decrement the remaining in-degree of each downstream neighbor of a
settled node; a neighbor reaching zero is enqueued if it is a known node.
The source reads (remaining.get(id) || 1) - 1, so a zero entry yields zero
again. -/
def decrementTargets (w : Workflow) : List String → (String → Nat) → List DAGNode →
    (String → Nat) × List DAGNode
  | [], rem, queue => (rem, queue)
  | t :: rest, rem, queue =>
    let old := rem t
    let newDeg := (if old = 0 then 1 else old) - 1
    let rem1 := fun x => if x = t then newDeg else rem x
    let queue1 :=
      if newDeg = 0 then
        match w.nodes.find? (fun m => m.id == t) with
        | some m => queue ++ [m]
        | none => queue
      else queue
    decrementTargets w rest rem1 queue1

/-- The settlement loop of executeDAG: fulfilled results propagate to
downstream in-degrees and may enqueue; the first rejected result aborts the
execution with the node named in the error. -/
def processResults (w : Workflow) : List NodeResult → (String → Nat) → List DAGNode →
    Except String ((String → Nat) × List DAGNode)
  | [], rem, queue => .ok (rem, queue)
  | r :: rest, rem, queue =>
    match r.result with
    | .ok _ =>
      let (rem1, queue1) := decrementTargets w (adjacency w.edges r.node.id) rem queue
      processResults w rest rem1 queue1
    | .error e => .error ("Node " ++ r.node.id ++ " failed: " ++ e)

/-- The scheduling loop of DAGRunner.executeDAG: drain the ready queue into a
batch, dispatch it, settle it, repeat until the queue empties or the stop
flag is observed (sampled per iteration); a set flag at loop exit throws.
Fuel bounds the iteration count; each iteration consumes fresh nodes so the
caller's fuel of one more than the node count never exhausts. -/
def runDAGLoop (d : Oracle) (rex : RegexCompile) (w : Workflow) (execInput : Value)
    (stopAt : Nat → Bool) :
    Nat → Nat → (String → Nat) → List (String × Value) → List DAGNode →
    List Event × Except String (List (String × Value))
  | 0, _, _, _, _ => ([], .error ("DAG runner fuel exhausted"))
  | fuel + 1, k, rem, outputs, queue =>
    if queue.isEmpty || stopAt k then
      ([], if stopAt k then .error ("Execution stopped") else .ok outputs)
    else
      let rs := batchCompute d rex w execInput outputs queue
      let evs := batchPrefixEvents rs ++ batchAsyncEvents rs
      let outputs1 := applyOutputs outputs rs
      match processResults w rs rem [] with
      | .error e => (evs, .error e)
      | .ok (rem1, queue1) =>
        let (evs2, res) := runDAGLoop d rex w execInput stopAt fuel (k + 1) rem1 outputs1 queue1
        (evs ++ evs2, res)

/-- The output-kind nodes of a workflow, in declaration order. -/
def outputNodes (w : Workflow) : List DAGNode :=
  w.nodes.filter (fun n => n.type == NodeType.output)

/-- The terminal nodes of a workflow: those with no outgoing edges. -/
def terminalNodes (w : Workflow) : List DAGNode :=
  w.nodes.filter (fun n => (adjacency w.edges n.id).isEmpty)

/-- The result key of a node: its display label, or its id when the label
is empty (node.label || node.id). -/
def nodeKey (n : DAGNode) : String :=
  if n.label = "" then n.id else n.label

/-- The recorded output of a node in the output table (Map.get semantics:
undefined on a miss). -/
def recordedOutput (outs : List (String × Value)) (n : DAGNode) : Value :=
  (objGet outs n.id).getD Value.undef

/-- The label-keyed result object over a node list (result[label || id] =
recorded output, built in list order). -/
def collectByLabel (outs : List (String × Value)) (ns : List DAGNode) : Value :=
  Value.obj (ns.foldl (fun acc n => objSet acc (nodeKey n) (recordedOutput outs n)) [])

/-- The result-selection tail of DAGRunner.run: one output node returns its
value, several return an object keyed by label (or id), and with none the
same rule applies to the terminal nodes. -/
def pickResult (w : Workflow) (outs : List (String × Value)) : Value :=
  match outputNodes w with
  | [n] => recordedOutput outs n
  | [] =>
    match terminalNodes w with
    | [n] => recordedOutput outs n
    | ts => collectByLabel outs ts
  | ns => collectByLabel outs ns

/-- The input-kind start nodes whose outputs DAGRunner.run pre-seeds with the
execution input before scheduling begins. -/
def preSeedIds (w : Workflow) : List String :=
  ((w.nodes.filter (fun n => inDeg w.edges n.id == 0)).filter
    (fun n => n.type == NodeType.input)).map (fun n => n.id)

/-- DAGRunner.run: fail when no start node exists, pre-seed input-kind start
nodes, drive the scheduling loop, then select the result. -/
def runDAG (d : Oracle) (rex : RegexCompile) (w : Workflow) (execInput : Value)
    (stopAt : Nat → Bool) : List Event × Except String Value :=
  let startNodes := w.nodes.filter (fun n => inDeg w.edges n.id == 0)
  if startNodes.isEmpty then ([], .error ("No starting nodes found in workflow"))
  else
    let inputNodes := startNodes.filter (fun n => n.type == NodeType.input)
    let outputs0 := inputNodes.foldl (fun acc n => objSet acc n.id execInput) []
    match runDAGLoop d rex w execInput stopAt (w.nodes.length + 1) 0
        (fun t => inDeg w.edges t) outputs0 startNodes with
    | (evs, .error e) => (evs, .error e)
    | (evs, .ok outs) => (evs, .ok (pickResult w outs))

/-- Execution lifecycle status. -/
inductive ExecutionStatus where
  | pending | running | completed | error | stopped
  deriving Repr, DecidableEq

/-- A persisted Execution row (the fields the settled claims consult). -/
structure ExecRecord where
  id : String
  workflowId : String
  status : ExecutionStatus
  input : Value
  output : Option Value := none
  error : Option String := none
  deriving Repr

/-- The persistence layer state: the workflows and executions tables. -/
structure EngineDB where
  workflows : List Workflow := []
  executions : List ExecRecord := []
  deriving Repr

/-- Database.getWorkflow. -/
def getWorkflow (db : EngineDB) (id : String) : Option Workflow :=
  db.workflows.find? (fun w => w.id == id)

/-- Database.getExecution. -/
def getExecution (db : EngineDB) (id : String) : Option ExecRecord :=
  db.executions.find? (fun e => e.id == id)

/-- Database.createExecution: insert a new row. -/
def createExecution (db : EngineDB) (e : ExecRecord) : EngineDB :=
  { db with executions := db.executions ++ [e] }

/-- A partial update to an execution row (Database.updateExecution's
argument): only the given fields are written. -/
structure ExecUpdate where
  status : Option ExecutionStatus := none
  output : Option Value := none
  error : Option String := none

/-- Apply a partial update to a row. -/
def applyExecUpdate (e : ExecRecord) (u : ExecUpdate) : ExecRecord :=
  { e with
    status := u.status.getD e.status,
    output := match u.output with | some v => some v | none => e.output,
    error := match u.error with | some m => some m | none => e.error }

/-- Database.updateExecution: read-modify-write of the row with this id. -/
def updateExecution (db : EngineDB) (id : String) (u : ExecUpdate) : EngineDB :=
  { db with executions := db.executions.map (fun e => if e.id == id then applyExecUpdate e u else e) }

/-- Database.listWorkflows: SELECT * FROM workflows ORDER BY updated_at DESC
(text comparison, descending). -/
def listWorkflows (db : EngineDB) : List Workflow :=
  db.workflows.mergeSort (fun a b => decide (b.updatedAt ≤ a.updatedAt))

/-- The synchronous body of RuntimeEngine.executeWorkflow: load the workflow
(failing when absent), create and persist an Execution with status running,
and return it; the scheduling loop is launched separately (runExecution).
Faithfully to the source, no validation step occurs on this path —
validateDAG is invoked only by generateDAGFromPrompt and iterateDAG.  The
fresh uuid is supplied as the executionId parameter. -/
def executeWorkflow (db : EngineDB) (workflowId executionId : String) (input : Value) :
    EngineDB × Except String ExecRecord :=
  match getWorkflow db workflowId with
  | none => (db, .error ("Workflow " ++ workflowId ++ " not found"))
  | some _ =>
    let ex : ExecRecord :=
      { id := executionId, workflowId := workflowId, status := .running, input := input }
    (createExecution db ex, .ok ex)

/-- Execution-terminal engine events. -/
inductive EngineEvent where
  | executionComplete : Value → EngineEvent
  | executionError : String → EngineEvent
  deriving Repr

/-- RuntimeEngine.runExecution: await the runner; on success persist status
completed with the output and emit execution:complete, on failure persist
status error with the message and emit execution:error. -/
def runExecution (db : EngineDB) (executionId : String) (d : Oracle) (rex : RegexCompile)
    (w : Workflow) (input : Value) (stopAt : Nat → Bool) :
    EngineDB × List Event × EngineEvent :=
  match runDAG d rex w input stopAt with
  | (evs, .ok out) =>
    (updateExecution db executionId { status := some .completed, output := some out },
     evs, .executionComplete out)
  | (evs, .error m) =>
    (updateExecution db executionId { status := some .error, error := some m },
     evs, .executionError m)

/-- RuntimeEngine.stopExecution followed by the suspended runner finishing:
stopExecution sets the stop flag and persists status stopped; the runner,
which observes the flag at its next loop check (iteration k), throws
Execution stopped, whereupon runExecution's catch handler persists status
error and emits execution:error.  The write order models the source: the
stop write happens while the runner is suspended awaiting its in-flight
batch, the terminal write after the runner rejects. -/
def stopThenFinish (db : EngineDB) (executionId : String) (d : Oracle) (rex : RegexCompile)
    (w : Workflow) (input : Value) (k : Nat) : EngineDB × List Event × EngineEvent :=
  let db1 := updateExecution db executionId { status := some .stopped }
  runExecution db1 executionId d rex w input (fun i => k ≤ i)

/-- The edge relation of a workflow graph: some edge goes from a to b. -/
def EdgeRel (edges : List DAGEdge) (a b : String) : Prop :=
  ∃ e ∈ edges, e.source = a ∧ e.target = b

/-- A nonempty directed path along the edges. -/
inductive EPath (edges : List DAGEdge) : String → String → Prop where
  | single {a b : String} : EdgeRel edges a b → EPath edges a b
  | cons {a b c : String} : EdgeRel edges a b → EPath edges b c → EPath edges a c

/-- The graph has a directed cycle: a nonempty path from some node to itself. -/
def HasCycle (edges : List DAGEdge) : Prop :=
  ∃ a, EPath edges a a

/-- ord is a topological sort for the graph: no duplicates, covers every
node, and every edge goes strictly forward. -/
def IsTopSort (nodes : List DAGNode) (edges : List DAGEdge) (ord : List String) : Prop :=
  ord.Nodup ∧ (∀ n ∈ nodes, n.id ∈ ord) ∧
    ∀ e ∈ edges, ∃ i j, i < j ∧ ord.get? i = some e.source ∧ ord.get? j = some e.target

/-- The graph admits a topological sort. -/
def TopSortExists (nodes : List DAGNode) (edges : List DAGEdge) : Prop :=
  ∃ ord, IsTopSort nodes edges ord

/-- Every edge references known nodes at both endpoints. -/
def EdgesWellFormed (nodes : List DAGNode) (edges : List DAGEdge) : Prop :=
  ∀ e ∈ edges, e.source ∈ nodeIdList nodes ∧ e.target ∈ nodeIdList nodes

/-- The DFS recursion stack seen as a chain of edges ending at the current
node: the head of the stack has an edge to the current node, and so on down. -/
def ChainTo (edges : List DAGEdge) : List String → String → Prop
  | [], _ => True
  | s :: rest, n => EdgeRel edges s n ∧ ChainTo edges rest s

/-- Instrumented twin of the DFS neighbor loop that additionally threads the
postorder finish list; used only to extract a topological order from an
accepting run. -/
def dfsNeighborsPost
    (visit : List String → List String → List String → String →
      Option (Bool × List String × List String)) :
    List String → List String → List String → List String →
      Option (Bool × List String × List String)
  | visited, _, post, [] => some (false, visited, post)
  | visited, stack, post, v :: rest =>
    if v ∈ visited then
      if v ∈ stack then some (true, visited, post)
      else dfsNeighborsPost visit visited stack post rest
    else
      match visit visited stack post v with
      | none => none
      | some (true, vis, po) => some (true, vis, po)
      | some (false, vis, po) => dfsNeighborsPost visit vis stack po rest

/-- Instrumented twin of dfsVisit: identical traversal, also appending each
node to the postorder list as it finishes. -/
def dfsVisitPost (adj : String → List String) :
    Nat → List String → List String → List String → String →
      Option (Bool × List String × List String)
  | 0, _, _, _, _ => none
  | f + 1, visited, stack, post, n =>
    match dfsNeighborsPost (dfsVisitPost adj f) (n :: visited) (n :: stack) post (adj n) with
    | none => none
    | some (true, vis, po) => some (true, vis, po)
    | some (false, vis, po) => some (false, vis, po ++ [n])

/-- Oracle that fails every effectful node; the scenarios below route
around it or expect the failure. -/
def oracleNone : Oracle := fun _ _ => .error ("no oracle")

/-- The stop flag is never raised. -/
def neverStop : Nat → Bool := fun _ => false

/-- Regex-compile scenario where every variable name's pattern compiles. -/
def rexOkAll : RegexCompile := fun _ => .ok ()

/-- Regex-compile scenario where the variable name "(" makes new RegExp
throw its SyntaxError, as in the source. -/
def rexParen : RegexCompile := fun v =>
  if v = "(" then .error ("Invalid regular expression") else .ok ()

/-- Two independent start nodes: a prompt node P whose variable list holds
the invalid name "(", followed by an output node X.  P's dispatch throws
inside the batch's synchronous prefix, so node:error(P) precedes
node:start(X). -/
def promptBatchWorkflow : Workflow :=
  { nodes := [⟨"P", .prompt, "", { promptTemplate := some ("hi"), varList := some [("(")] }⟩,
              ⟨"X", .output, "", {}⟩],
    edges := [] }

/-- S3 scenario graph: nodes a, b, c with edges a→b, b→c, c→b. -/
def cyclicWorkflow : Workflow :=
  { id := "wf-cycle",
    nodes := [⟨"a", .input, "", {}⟩, ⟨"b", .agent, "", {}⟩, ⟨"c", .agent, "", {}⟩],
    edges := [⟨"e1", "a", "b"⟩, ⟨"e2", "b", "c"⟩, ⟨"e3", "c", "b"⟩] }

/-- A store holding only the cyclic workflow. -/
def dbWithCycle : EngineDB := { workflows := [cyclicWorkflow] }

/-- A two-node cycle: no node has in-degree zero. -/
def twoCycleWorkflow : Workflow :=
  { nodes := [⟨"a", .agent, "", {}⟩, ⟨"b", .agent, "", {}⟩],
    edges := [⟨"e1", "a", "b"⟩, ⟨"e2", "b", "a"⟩] }

/-- A while-kind loop node's data record, with a condition that holds on the
inputs below. -/
def whileLoopData : NodeData :=
  { loopType := some ("while"), loopConfig := some { condition := some ("input < 10") } }

/-- input → output chain: the pre-seeded input node emits no events. -/
def inputOutputWorkflow : Workflow :=
  { nodes := [⟨"A", .input, "", {}⟩, ⟨"B", .output, "", {}⟩],
    edges := [⟨"e1", "A", "B"⟩] }

/-- S1/S4 chain A(input) → B(transform) → C(output). -/
def chainWorkflow : Workflow :=
  { nodes := [⟨"A", .input, "", {}⟩,
              ⟨"B", .transform, "", { transform := some ("input * 2") }⟩,
              ⟨"C", .output, "", {}⟩],
    edges := [⟨"e1", "A", "B"⟩, ⟨"e2", "B", "C"⟩] }

/-- Expression oracle doubling the S1 transform node's numeric input. -/
def oracleDouble : Oracle := fun node input =>
  if node.id = "B" then
    match input with
    | .num n => .ok (.num (2 * n))
    | _ => .error ("bad input")
  else .error ("no oracle")

/-- Expression oracle failing the S4 transform node. -/
def oracleFailB : Oracle := fun node _ =>
  if node.id = "B" then .error ("nonexistent is not defined")
  else .error ("no oracle")

/-- S2 diamond with labelled branches fanning into D. -/
def diamondWorkflow : Workflow :=
  { nodes := [⟨"A", .input, "", {}⟩,
              ⟨"B", .transform, "left", { transform := some ("input + 1") }⟩,
              ⟨"C", .transform, "right", { transform := some ("input * 10") }⟩,
              ⟨"D", .output, "", {}⟩],
    edges := [⟨"e1", "A", "B"⟩, ⟨"e2", "A", "C"⟩, ⟨"e3", "B", "D"⟩, ⟨"e4", "C", "D"⟩] }

/-- A store holding one running execution record. -/
def dbRunning : EngineDB :=
  { executions := [{ id := "exec-1", workflowId := "wf", status := .running, input := Value.num 3 }] }

/-- A store holding a running execution row for the input → output run. -/
def dbInputOutput : EngineDB :=
  { executions := [{ id := "x1", workflowId := "wf", status := .running, input := Value.num 7 }] }

/-- No node:start event occurs at a position after a node:error event. -/
def NoStartAfterError (l : List Event) : Prop :=
  ∀ i j nid err nid2 ty, i < j → l.get? i = some (Event.nodeError nid err) →
    l.get? j ≠ some (Event.nodeStart nid2 ty)

/-- Whenever the event list holds a node:error, the run result is the
rejection naming a failed node whose node:error event was emitted. -/
def ErrorSurfaces {β : Type} (l : List Event) (res : Except String β) : Prop :=
  (∃ nid err, Event.nodeError nid err ∈ l) →
    ∃ nid err, res = .error ("Node " ++ nid ++ " failed: " ++ err) ∧
      Event.nodeError nid err ∈ l

/-- a occurs at a strictly earlier position than b. -/
def Before (L : List String) (a b : String) : Prop :=
  ∃ i j, i < j ∧ L.get? i = some a ∧ L.get? j = some b

/-- Every adjacency successor of a finished node is finished, earlier: the
postorder list read left to right is a reverse topological order. -/
def GoodAdj (adj : String → List String) (L : List String) : Prop :=
  ∀ u ∈ L, ∀ v ∈ adj u, v ∈ L ∧ Before L v u

/-- The depth-first-search invariant: the visit set is exactly the finished
(postorder) list plus the recursion stack, the postorder list has no
duplicates and is disjoint from the stack, and finished nodes only point at
earlier finished nodes. -/
def DFSInv (adj : String → List String) (visited stack L : List String) : Prop :=
  (∀ x, x ∈ visited ↔ (x ∈ L ∨ x ∈ stack)) ∧ L.Nodup ∧
    (∀ x ∈ L, x ∉ stack) ∧ GoodAdj adj L

/-- The number of identifiers not yet visited (the DFS recursion-depth
budget). -/
def unvisCount (ids visited : List String) : Nat :=
  (ids.filter (fun x => decide (x ∉ visited))).length

/-- The number of incoming edges of t whose source lies in the processed
set P (the in-degree decrements the scheduler has performed so far). -/
def countSrc (edges : List DAGEdge) (t : String) (P : List String) : Nat :=
  (edges.filter (fun e => e.target == t && decide (e.source ∈ P))).length

/-- Every incoming-edge source of n lies in S. -/
def SourcesIn (edges : List DAGEdge) (S : List String) (n : String) : Prop :=
  ∀ e ∈ edges, e.target = n → e.source ∈ S

/-- Every incoming-edge source of n has a recorded output. -/
def ReadyFull (edges : List DAGEdge) (outputs : List (String × Value)) (n : String) : Prop :=
  ∀ e ∈ edges, e.target = n → (objGet outputs e.source).isSome = true

/-- Topological respect of a trace relative to an initially-settled
predicate S0: whenever some node is started, every upstream source of an
edge into it was either settled at the outset or completed strictly
earlier in the trace. -/
def TraceOK (w : Workflow) (S0 : String → Prop) (l : List Event) : Prop :=
  ∀ e ∈ w.edges, ∀ j ty, l.get? j = some (Event.nodeStart e.target ty) →
    S0 e.source ∨ ∃ i v, i < j ∧ l.get? i = some (Event.nodeComplete e.source v)

/- ======================================================================
   Theorems
   ====================================================================== -/

/-- C1.  The spec demands that executeWorkflow on a cyclic workflow fail
synchronously with the CycleDetected validation error and create no
Execution record.  The source's validator does reject the S3 cycle, but
RuntimeEngine.executeWorkflow never invokes it: the call succeeds, returns a
running execution, and the record is persisted in the store. -/
theorem executeWorkflow_cyclic_no_validation :
    validateDAG cyclicWorkflow.nodes cyclicWorkflow.edges = .error ("DAG contains a cycle") ∧
    (executeWorkflow dbWithCycle ("wf-cycle") ("exec-1") (Value.obj [])).2 =
      .ok { id := "exec-1", workflowId := "wf-cycle", status := .running, input := Value.obj [] } ∧
    getExecution (executeWorkflow dbWithCycle ("wf-cycle") ("exec-1") (Value.obj [])).1 ("exec-1") =
      some { id := "exec-1", workflowId := "wf-cycle", status := .running, input := Value.obj [] } :=
  ⟨rfl, rfl, rfl⟩

/-- C4.  The spec states that a while-kind loop node emits items until its
expression over the input is false (hence a non-empty list when the
expression initially holds).  The dispatcher has no while branch: the
result list stays empty and the expression is never evaluated. -/
theorem executeLoopNode_while_empty :
    executeLoopNode false whileLoopData (Value.num 0) = Value.list [] ∧
    executeLoopNode false whileLoopData (Value.bool true) = Value.list [] :=
  ⟨rfl, rfl⟩

/-- C10.  When no node has in-degree zero — including the empty node list —
DAGRunner.run throws before scheduling, and the engine records the
execution as status error with that message, emitting execution:error. -/
theorem runDAG_no_start_nodes_error (w : Workflow) (d : Oracle) (rex : RegexCompile)
    (input : Value) (stopAt : Nat → Bool) (db : EngineDB) (eid : String)
    (h : ∀ n ∈ w.nodes, 0 < inDeg w.edges n.id) :
    (runDAG d rex w input stopAt).2 = .error ("No starting nodes found in workflow") ∧
    (runExecution db eid d rex w input stopAt).1 =
      updateExecution db eid
        { status := some .error, error := some ("No starting nodes found in workflow") } ∧
    (runExecution db eid d rex w input stopAt).2.2 =
      .executionError ("No starting nodes found in workflow") := by
  have hfilter : w.nodes.filter (fun n => inDeg w.edges n.id == 0) = [] := by
    rw [List.filter_eq_nil_iff]
    intro n hn
    have hp := h n hn
    simp only [beq_iff_eq]
    omega
  have h1 : runDAG d rex w input stopAt =
      ([], .error ("No starting nodes found in workflow")) := by
    unfold runDAG
    rw [hfilter]
    rfl
  refine ⟨by rw [h1], ?_, ?_⟩ <;> (unfold runExecution; rw [h1])

/-- Witness for C10 at the two-node cycle. -/
theorem runDAG_no_start_nodes_error_witness :
    (∀ n ∈ twoCycleWorkflow.nodes, 0 < inDeg twoCycleWorkflow.edges n.id) ∧
    (runDAG oracleNone rexOkAll twoCycleWorkflow Value.null neverStop).2 =
      .error ("No starting nodes found in workflow") :=
  ⟨by decide,
   (runDAG_no_start_nodes_error twoCycleWorkflow oracleNone rexOkAll Value.null neverStop
     ({} : EngineDB) ("x") (by decide)).1⟩

/-- C9.  listWorkflows returns exactly the persisted workflows (a
permutation of the table) ordered by descending modification timestamp. -/
theorem listWorkflows_desc_by_updatedAt (db : EngineDB) :
    List.Perm (listWorkflows db) db.workflows ∧
    (listWorkflows db).Pairwise (fun a b => b.updatedAt ≤ a.updatedAt) := by
  refine ⟨List.mergeSort_perm db.workflows _, ?_⟩
  have h := @List.sorted_mergeSort Workflow
    (fun a b : Workflow => decide (b.updatedAt ≤ a.updatedAt))
    (fun a b c h1 h2 => by
      simp only [decide_eq_true_eq] at h1 h2 ⊢
      exact le_trans h2 h1)
    (fun a b => by
      simp only [Bool.or_eq_true, decide_eq_true_eq]
      exact le_total b.updatedAt a.updatedAt)
    db.workflows
  exact h.imp (fun hab => by simpa using hab)

/-- Lookup in a cons cell: hit the head or fall through. -/
theorem objGet_cons (p : String × Value) (o : List (String × Value)) (x : String) :
    objGet (p :: o) x = if p.1 = x then some p.2 else objGet o x := by
  by_cases h : p.1 = x
  · simp [objGet, List.find?_cons, h]
  · simp [objGet, List.find?_cons, h]

/-- Overwriting the k-keyed entry leaves lookups at other keys unchanged. -/
theorem objGet_map_replace_ne (o : List (String × Value)) (k : String) (v : Value)
    (x : String) (hx : x ≠ k) :
    objGet (o.map (fun p => if p.1 == k then (k, v) else p)) x = objGet o x := by
  induction o with
  | nil => rfl
  | cons p rest ih =>
    simp only [List.map_cons]
    by_cases hp : p.1 = k
    · have h1 : ((if p.1 == k then (k, v) else p) : String × Value) = (k, v) := by simp [hp]
      rw [h1, objGet_cons, objGet_cons, if_neg (fun hkx => hx hkx.symm), if_neg (by rw [hp]; exact fun hkx => hx hkx.symm)]
      exact ih
    · have h1 : ((if p.1 == k then (k, v) else p) : String × Value) = p := by simp [hp]
      rw [h1, objGet_cons, objGet_cons, ih]

/-- After overwriting, looking up k yields the new value exactly when the
key was present. -/
theorem objGet_map_replace_eq (o : List (String × Value)) (k : String) (v : Value) :
    objGet (o.map (fun p => if p.1 == k then (k, v) else p)) k =
      if o.any (fun p => p.1 == k) then some v else none := by
  induction o with
  | nil => rfl
  | cons p rest ih =>
    simp only [List.map_cons, List.any_cons]
    by_cases hp : p.1 = k
    · have h1 : ((if p.1 == k then (k, v) else p) : String × Value) = (k, v) := by simp [hp]
      rw [h1, objGet_cons]
      simp [hp]
    · have h1 : ((if p.1 == k then (k, v) else p) : String × Value) = p := by simp [hp]
      have h2 : (p.1 == k) = false := by simpa using hp
      rw [h1, objGet_cons, if_neg hp, ih]
      simp only [h2, Bool.false_or]

/-- A key that fails the any-scan is absent. -/
theorem objGet_eq_none_of_any_false (o : List (String × Value)) (k : String)
    (h : o.any (fun p => p.1 == k) = false) : objGet o k = none := by
  induction o with
  | nil => rfl
  | cons p rest ih =>
    simp only [List.any_cons, Bool.or_eq_false_iff] at h
    rw [objGet_cons, if_neg (by simpa using h.1)]
    exact ih h.2

/-- The object/Map assignment law: lookup after objSet hits the new value at
its key and is unchanged elsewhere. -/
theorem objGet_objSet (o : List (String × Value)) (k : String) (v : Value) (x : String) :
    objGet (objSet o k v) x = if x = k then some v else objGet o x := by
  unfold objSet
  by_cases hany : o.any (fun p => p.1 == k) = true
  · rw [if_pos hany]
    by_cases hx : x = k
    · subst hx
      rw [objGet_map_replace_eq, if_pos hany, if_pos rfl]
    · rw [objGet_map_replace_ne o k v x hx, if_neg hx]
  · rw [if_neg hany]
    by_cases hx : x = k
    · subst hx
      have hnone : objGet o x = none :=
        objGet_eq_none_of_any_false o x (Bool.eq_false_iff.mpr hany)
      have hfind : o.find? (fun p => p.1 == x) = none := by
        unfold objGet at hnone
        simpa using hnone
      rw [if_pos rfl]
      unfold objGet
      rw [List.find?_append, hfind, Option.none_or]
      simp [List.find?_cons]
    · rw [if_neg hx]
      unfold objGet
      rw [List.find?_append]
      have h2 : ([(k, v)] : List (String × Value)).find? (fun p => p.1 == x) = none := by
        rw [List.find?_eq_none]
        intro p hp
        rw [List.mem_singleton] at hp
        subst hp
        simp only [beq_iff_eq]
        exact fun h => hx h.symm
      rw [h2, Option.or_none]

/-- Folding objSet over a list realizes later-insertion-wins: a lookup
returns the value attached to the last element carrying that key, falling
back to the initial object. -/
theorem objGet_foldl_objSet {α : Type} (key : α → String) (val : α → Value)
    (ls : List α) (init : List (String × Value)) (x : String) :
    objGet (ls.foldl (fun acc a => objSet acc (key a) (val a)) init) x =
      match ls.reverse.find? (fun a => key a == x) with
      | some a => some (val a)
      | none => objGet init x := by
  induction ls generalizing init with
  | nil => rfl
  | cons a rest ih =>
    rw [List.foldl_cons, ih, List.reverse_cons, List.find?_append]
    cases hfind : rest.reverse.find? (fun b => key b == x) with
    | some b => simp
    | none =>
      simp only [Option.none_or]
      by_cases hx : key a = x
      · have hone : List.find? (fun b => key b == x) [a] = some a := by simp [hx]
        rw [hone, objGet_objSet, if_pos hx.symm]
      · have hone : List.find? (fun b => key b == x) [a] = none := by simp [hx]
        rw [hone, objGet_objSet, if_neg (fun h => hx h.symm)]

/-- Specialisation to an empty initial object: the lookup is exactly the
value of the last list element carrying the key. -/
theorem objGet_foldl_objSet_nil {α : Type} (key : α → String) (val : α → Value)
    (ls : List α) (x : String) :
    objGet (ls.foldl (fun acc a => objSet acc (key a) (val a)) []) x =
      (ls.reverse.find? (fun a => key a == x)).map val := by
  rw [objGet_foldl_objSet]
  cases ls.reverse.find? (fun a => key a == x) <;> rfl

/-- A node has an empty upstream list exactly when its in-degree is zero. -/
theorem upstreamList_nil_iff (edges : List DAGEdge) (n : String) :
    upstreamList edges n = [] ↔ inDeg edges n = 0 := by
  simp [upstreamList, inDeg, List.length_eq_zero]

/-- C7.  Fan-in rules of gatherInputs: with no incoming edges the gathered
input is the execution input; with exactly one upstream it is that
upstream's recorded output verbatim; with several it is an object whose key
set is the upstream labels (falling back to ids) and whose lookups yield
the recorded output of the last upstream carrying the key (later
insertions win collisions). -/
theorem gatherInputs_fanin (w : Workflow) (outputs : List (String × Value))
    (execInput : Value) (n : DAGNode) :
    (inDeg w.edges n.id = 0 → gatherInputs w outputs execInput n = execInput) ∧
    (∀ u v, upstreamList w.edges n.id = [u] → objGet outputs u = some v →
      gatherInputs w outputs execInput n = v) ∧
    (2 ≤ (upstreamList w.edges n.id).length →
      ∃ fields, gatherInputs w outputs execInput n = Value.obj fields ∧
        (∀ x, (objGet fields x).isSome ↔
          x ∈ (upstreamList w.edges n.id).map (labelOrId w.nodes)) ∧
        (∀ x, objGet fields x =
          ((upstreamList w.edges n.id).reverse.find?
            (fun u => labelOrId w.nodes u == x)).map
            (fun u => (objGet outputs u).getD Value.undef))) := by
  refine ⟨?_, ?_, ?_⟩
  · intro h0
    have hnil : upstreamList w.edges n.id = [] := (upstreamList_nil_iff _ _).mpr h0
    unfold gatherInputs
    rw [hnil]
  · intro u v hu hv
    unfold gatherInputs
    rw [hu]
    show (objGet outputs u).getD Value.undef = v
    rw [hv]
    rfl
  · intro h2
    obtain ⟨u1, rest1, hl⟩ : ∃ u1 rest1, upstreamList w.edges n.id = u1 :: rest1 := by
      cases hl : upstreamList w.edges n.id with
      | nil => rw [hl] at h2; simp at h2
      | cons a b => exact ⟨a, b, rfl⟩
    obtain ⟨u2, rest2, hr⟩ : ∃ u2 rest2, rest1 = u2 :: rest2 := by
      cases hr : rest1 with
      | nil => rw [hl, hr] at h2; simp at h2
      | cons a b => exact ⟨a, b, rfl⟩
    refine ⟨(upstreamList w.edges n.id).foldl
      (fun acc uid => objSet acc (labelOrId w.nodes uid) ((objGet outputs uid).getD Value.undef))
      [], ?_, ?_, ?_⟩
    · unfold gatherInputs
      rw [hl, hr]
    · intro x
      rw [objGet_foldl_objSet_nil]
      simp [List.find?_isSome, List.mem_reverse, List.mem_map, beq_iff_eq]
    · intro x
      rw [objGet_foldl_objSet_nil]

/-- Witness for C7 at node D of the S2 diamond. -/
theorem gatherInputs_fanin_witness :
    2 ≤ (upstreamList diamondWorkflow.edges ("D")).length ∧
    ∃ fields,
      gatherInputs diamondWorkflow [("B", Value.num 5), ("C", Value.num 40)] (Value.num 4)
        ⟨"D", .output, "", {}⟩ = Value.obj fields ∧
      (∀ x, (objGet fields x).isSome ↔
        x ∈ (upstreamList diamondWorkflow.edges ("D")).map (labelOrId diamondWorkflow.nodes)) ∧
      (∀ x, objGet fields x =
        ((upstreamList diamondWorkflow.edges ("D")).reverse.find?
          (fun u => labelOrId diamondWorkflow.nodes u == x)).map
          (fun u => (objGet [("B", Value.num 5), ("C", Value.num 40)] u).getD Value.undef)) :=
  ⟨by decide,
   (gatherInputs_fanin diamondWorkflow [("B", Value.num 5), ("C", Value.num 40)]
     (Value.num 4) ⟨"D", .output, "", {}⟩).2.2 (by decide)⟩

/-- C8.  Result selection of DAGRunner.run: a unique output node returns its
recorded output; several return an object keyed by display label (or id),
later insertions winning; with no output node the same one-versus-several
rule applies to the nodes without outgoing edges.  On any clean run() the
returned value is pickResult applied to the final output table. -/
theorem pickResult_rules (w : Workflow) (outs : List (String × Value)) :
    (∀ n, outputNodes w = [n] → pickResult w outs = recordedOutput outs n) ∧
    (2 ≤ (outputNodes w).length →
      ∃ fields, pickResult w outs = Value.obj fields ∧
        ∀ x, objGet fields x =
          ((outputNodes w).reverse.find? (fun n => nodeKey n == x)).map
            (recordedOutput outs)) ∧
    (outputNodes w = [] →
      (∀ n, terminalNodes w = [n] → pickResult w outs = recordedOutput outs n) ∧
      ((terminalNodes w).length ≠ 1 →
        ∃ fields, pickResult w outs = Value.obj fields ∧
          ∀ x, objGet fields x =
            ((terminalNodes w).reverse.find? (fun n => nodeKey n == x)).map
              (recordedOutput outs))) ∧
    (∀ d rex input stopAt evs v, runDAG d rex w input stopAt = (evs, .ok v) →
      ∃ finalOuts, v = pickResult w finalOuts) := by
  refine ⟨?_, ?_, ?_, ?_⟩
  · intro n hn
    unfold pickResult
    rw [hn]
  · intro h2
    obtain ⟨n1, r1, hl⟩ : ∃ n1 r1, outputNodes w = n1 :: r1 := by
      cases hl : outputNodes w with
      | nil => rw [hl] at h2; simp at h2
      | cons a b => exact ⟨a, b, rfl⟩
    obtain ⟨n2, r2, hr⟩ : ∃ n2 r2, r1 = n2 :: r2 := by
      cases hr : r1 with
      | nil => rw [hl, hr] at h2; simp at h2
      | cons a b => exact ⟨a, b, rfl⟩
    refine ⟨(outputNodes w).foldl
      (fun acc n => objSet acc (nodeKey n) (recordedOutput outs n)) [], ?_, ?_⟩
    · unfold pickResult
      rw [hl, hr]
      rfl
    · intro x
      rw [objGet_foldl_objSet_nil]
  · intro hout
    constructor
    · intro n hn
      unfold pickResult
      rw [hout, hn]
    · intro hne
      refine ⟨(terminalNodes w).foldl
        (fun acc n => objSet acc (nodeKey n) (recordedOutput outs n)) [], ?_, ?_⟩
      · unfold pickResult
        rw [hout]
        cases ht : terminalNodes w with
        | nil => rfl
        | cons a b =>
          cases hb : b with
          | nil => rw [ht, hb] at hne; simp at hne
          | cons c dd => rfl
      · intro x
        rw [objGet_foldl_objSet_nil]
  · intro d rex input stopAt evs v hrun
    simp only [runDAG] at hrun
    split at hrun
    · simp at hrun
    · split at hrun
      · simp at hrun
      · rename_i evs0 outs0 heq
        refine ⟨outs0, ?_⟩
        have h2 := congrArg Prod.snd hrun
        simp only [Except.ok.injEq] at h2
        exact h2.symm

/-- Witness for C8 at the S1 chain (single output node). -/
theorem pickResult_rules_witness :
    outputNodes chainWorkflow = [⟨"C", .output, "", {}⟩] ∧
    pickResult chainWorkflow [("C", Value.num 6)] =
      recordedOutput [("C", Value.num 6)] ⟨"C", .output, "", {}⟩ :=
  ⟨rfl, (pickResult_rules chainWorkflow [("C", Value.num 6)]).1 _ rfl⟩

/-- C3.  The spec says a stopped execution persists as status stopped,
matching the last execution-terminal event.  In the source, stopExecution
writes status stopped, but the suspended runner then observes the flag,
throws Execution stopped, and runExecution's catch handler overwrites the
status with error and emits execution:error — so the persisted status ends
as error and the only terminal event is execution:error. -/
theorem stopExecution_overwritten_by_error :
    (runDAG oracleDouble rexOkAll chainWorkflow (Value.num 3) (fun i => 1 ≤ i)).2 =
      .error ("Execution stopped") ∧
    (getExecution (stopThenFinish dbRunning ("exec-1") oracleDouble rexOkAll chainWorkflow
        (Value.num 3) 1).1 ("exec-1")).map (fun e => e.status) = some ExecutionStatus.error ∧
    (stopThenFinish dbRunning ("exec-1") oracleDouble rexOkAll chainWorkflow
        (Value.num 3) 1).2.2 = EngineEvent.executionError ("Execution stopped") :=
  ⟨rfl, rfl, rfl⟩

/-- A settlement event is never node:start shaped. -/
theorem settleEvent_ne_start (r : NodeResult) (nid : String) (ty : NodeType) :
    Event.nodeStart nid ty ≠ settleEvent r := by
  intro h
  unfold settleEvent at h
  cases hres : r.result with
  | ok v => rw [hres] at h; exact Event.noConfusion h
  | error e => rw [hres] at h; exact Event.noConfusion h

/-- A start event of the synchronous prefix belongs to a non-skipped batch
member with that identifier and kind. -/
theorem batchPrefixEvents_start_inv (rs : List NodeResult) :
    ∀ nid ty, Event.nodeStart nid ty ∈ batchPrefixEvents rs →
      ∃ r ∈ rs, r.skipped = false ∧ r.node.id = nid ∧ r.node.type = ty := by
  induction rs with
  | nil => intro nid ty h; exact absurd h (List.not_mem_nil _)
  | cons r rest ih =>
    intro nid ty h
    simp only [batchPrefixEvents] at h
    rcases List.mem_append.mp h with h | h
    · by_cases hsk : r.skipped = true
      · rw [if_pos hsk] at h
        exact absurd h (List.not_mem_nil _)
      · rw [if_neg hsk] at h
        have hsk2 : r.skipped = false := Bool.eq_false_iff.mpr hsk
        by_cases hsy : syncKind r.node.type = true
        · rw [if_pos hsy] at h
          rcases List.mem_cons.mp h with h2 | h2
          · injection h2 with ha hb
            exact ⟨r, List.mem_cons_self _ _, hsk2, ha.symm, hb.symm⟩
          · rcases List.mem_cons.mp h2 with h3 | h3
            · exact absurd h3 (settleEvent_ne_start r nid ty)
            · exact absurd h3 (List.not_mem_nil _)
        · rw [if_neg hsy] at h
          rcases List.mem_cons.mp h with h2 | h2
          · injection h2 with ha hb
            exact ⟨r, List.mem_cons_self _ _, hsk2, ha.symm, hb.symm⟩
          · exact absurd h2 (List.not_mem_nil _)
    · obtain ⟨r2, hr2, hs2, ha, hb⟩ := ih nid ty h
      exact ⟨r2, List.mem_cons_of_mem _ hr2, hs2, ha, hb⟩

/-- Asynchronous settlement events are never starts. -/
theorem batchAsyncEvents_no_start (rs : List NodeResult) :
    ∀ nid ty, Event.nodeStart nid ty ∉ batchAsyncEvents rs := by
  intro nid ty h
  unfold batchAsyncEvents at h
  rw [List.mem_map] at h
  obtain ⟨r, _, hr⟩ := h
  exact settleEvent_ne_start r nid ty hr.symm

/-- A synchronous-kind non-skipped member settles inside the prefix. -/
theorem settleEvent_mem_batchPrefix (rs : List NodeResult) (r : NodeResult)
    (hr : r ∈ rs) (hsk : r.skipped = false) (hsy : syncKind r.node.type = true) :
    settleEvent r ∈ batchPrefixEvents rs := by
  induction rs with
  | nil => exact absurd hr (List.not_mem_nil r)
  | cons r0 rest ih =>
    simp only [batchPrefixEvents]
    rcases List.mem_cons.mp hr with rfl | hr2
    · refine List.mem_append_left _ ?_
      rw [if_neg (ne_true_of_eq_false hsk), if_pos hsy]
      exact List.mem_cons_of_mem _ (List.mem_cons_self _ _)
    · exact List.mem_append_right _ (ih hr2)

/-- An asynchronous-kind non-skipped member settles in the async block. -/
theorem settleEvent_mem_batchAsync (rs : List NodeResult) (r : NodeResult)
    (hr : r ∈ rs) (hsk : r.skipped = false) (hsy : syncKind r.node.type = false) :
    settleEvent r ∈ batchAsyncEvents rs := by
  unfold batchAsyncEvents
  refine List.mem_map_of_mem _ (List.mem_filter.mpr ⟨hr, ?_⟩)
  rw [hsk, hsy]
  rfl

/-- A non-skipped member's settlement event is in the batch block. -/
theorem settleEvent_mem_batch (rs : List NodeResult) (r : NodeResult)
    (hr : r ∈ rs) (hsk : r.skipped = false) :
    settleEvent r ∈ batchPrefixEvents rs ++ batchAsyncEvents rs := by
  by_cases hsy : syncKind r.node.type = true
  · exact List.mem_append_left _ (settleEvent_mem_batchPrefix rs r hr hsk hsy)
  · exact List.mem_append_right _
      (settleEvent_mem_batchAsync rs r hr hsk (Bool.eq_false_iff.mpr hsy))

/-- The completion event of a fulfilled, non-skipped member is in the batch
block. -/
theorem complete_mem_batch (rs : List NodeResult) (r : NodeResult) (v : Value)
    (hr : r ∈ rs) (hok : r.result = .ok v) (hsk : r.skipped = false) :
    Event.nodeComplete r.node.id v ∈ batchPrefixEvents rs ++ batchAsyncEvents rs := by
  have h := settleEvent_mem_batch rs r hr hsk
  have hse : settleEvent r = Event.nodeComplete r.node.id v := by
    unfold settleEvent
    rw [hok]
  rw [hse] at h
  exact h

/-- An error event of the synchronous prefix belongs to a rejected,
non-skipped member of a synchronous kind. -/
theorem batchPrefixEvents_err_inv (rs : List NodeResult) :
    ∀ nid err, Event.nodeError nid err ∈ batchPrefixEvents rs →
      ∃ r ∈ rs, r.skipped = false ∧ r.result = .error err ∧ r.node.id = nid ∧
        syncKind r.node.type = true := by
  induction rs with
  | nil => intro nid err h; exact absurd h (List.not_mem_nil _)
  | cons r rest ih =>
    intro nid err h
    simp only [batchPrefixEvents] at h
    rcases List.mem_append.mp h with h | h
    · by_cases hsk : r.skipped = true
      · rw [if_pos hsk] at h
        exact absurd h (List.not_mem_nil _)
      · rw [if_neg hsk] at h
        by_cases hsy : syncKind r.node.type = true
        · rw [if_pos hsy] at h
          rcases List.mem_cons.mp h with h2 | h2
          · exact Event.noConfusion h2
          · rcases List.mem_cons.mp h2 with h3 | h3
            · cases hres : r.result with
              | ok v =>
                unfold settleEvent at h3
                rw [hres] at h3
                exact Event.noConfusion h3
              | error e =>
                unfold settleEvent at h3
                rw [hres] at h3
                injection h3 with ha hb
                refine ⟨r, List.mem_cons_self _ _, Bool.eq_false_iff.mpr hsk,
                  hres.trans ?_, ha.symm, hsy⟩
                rw [hb]
            · exact absurd h3 (List.not_mem_nil _)
        · rw [if_neg hsy] at h
          rcases List.mem_cons.mp h with h2 | h2
          · exact Event.noConfusion h2
          · exact absurd h2 (List.not_mem_nil _)
    · obtain ⟨r2, hr2, hs2, hres2, hid2, hsy2⟩ := ih nid err h
      exact ⟨r2, List.mem_cons_of_mem _ hr2, hs2, hres2, hid2, hsy2⟩

/-- An error event of the async block belongs to a rejected, non-skipped
member. -/
theorem batchAsyncEvents_err_inv (rs : List NodeResult) :
    ∀ nid err, Event.nodeError nid err ∈ batchAsyncEvents rs →
      ∃ r ∈ rs, r.skipped = false ∧ r.result = .error err ∧ r.node.id = nid := by
  intro nid err h
  unfold batchAsyncEvents at h
  rw [List.mem_map] at h
  obtain ⟨r, hrf, hr⟩ := h
  rw [List.mem_filter] at hrf
  have hcond := hrf.2
  simp only [Bool.and_eq_true, Bool.not_eq_true'] at hcond
  cases hres : r.result with
  | ok v =>
    unfold settleEvent at hr
    rw [hres] at hr
    exact Event.noConfusion hr
  | error e =>
    unfold settleEvent at hr
    rw [hres] at hr
    injection hr with ha hb
    refine ⟨r, hrf.1, hcond.1, hres.trans ?_, ha⟩
    rw [hb]

/-- A rejection processed by the settlement loop names the first rejected
node and its error. -/
theorem processResults_error_shape (w : Workflow) :
    ∀ (rs : List NodeResult) rem queue e, processResults w rs rem queue = .error e →
      ∃ r ∈ rs, ∃ err, r.result = .error err ∧
        e = "Node " ++ r.node.id ++ " failed: " ++ err := by
  intro rs
  induction rs with
  | nil => intro rem queue e h; exact Except.noConfusion h
  | cons r0 rest ih =>
    intro rem queue e h
    unfold processResults at h
    cases hres : r0.result with
    | ok v =>
      rw [hres] at h
      cases hdec : decrementTargets w (adjacency w.edges r0.node.id) rem queue with
      | mk rem1 queue1 =>
        rw [hdec] at h
        obtain ⟨r, hr, err, hres2, he⟩ := ih rem1 queue1 e h
        exact ⟨r, List.mem_cons_of_mem _ hr, err, hres2, he⟩
    | error e0 =>
      rw [hres] at h
      refine ⟨r0, List.mem_cons_self _ _, e0, hres, ?_⟩
      injection h with h1
      exact h1.symm

/-- If the settlement loop succeeds, every batch member was fulfilled. -/
theorem processResults_ok_all_ok (w : Workflow) :
    ∀ (rs : List NodeResult) rem queue x, processResults w rs rem queue = .ok x →
      ∀ r ∈ rs, ∃ v, r.result = Except.ok v := by
  intro rs
  induction rs with
  | nil => intro rem queue x _ r hr; exact absurd hr (List.not_mem_nil r)
  | cons r0 rest ih =>
    intro rem queue x h r hr
    unfold processResults at h
    cases hres : r0.result with
    | ok v =>
      rw [hres] at h
      cases hdec : decrementTargets w (adjacency w.edges r0.node.id) rem queue with
      | mk rem1 queue1 =>
        rw [hdec] at h
        rcases List.mem_cons.mp hr with h1 | h1
        · exact ⟨v, by rw [h1]; exact hres⟩
        · exact ih rem1 queue1 x h r h1
    | error e0 => rw [hres] at h; exact Except.noConfusion h

/-- A rejected batch member cannot have taken the skip path. -/
theorem batchCompute_error_not_skipped (d : Oracle) (rex : RegexCompile) (w : Workflow)
    (execInput : Value) (outputs : List (String × Value)) (batch : List DAGNode) :
    ∀ r ∈ batchCompute d rex w execInput outputs batch,
      ∀ err, r.result = .error err → r.skipped = false := by
  intro r hr err herr
  unfold batchCompute at hr
  rw [List.mem_map] at hr
  obtain ⟨n, _, hrn⟩ := hr
  cases hobj : objGet outputs n.id with
  | some v =>
    rw [hobj] at hrn
    rw [← hrn] at herr
    exact Except.noConfusion herr
  | none =>
    rw [hobj] at hrn
    rw [← hrn]

/-- Among the synchronous kinds only prompt can reject: a batch member of a
synchronous kind other than prompt is always fulfilled. -/
theorem batchCompute_sync_ok (d : Oracle) (rex : RegexCompile) (w : Workflow)
    (execInput : Value) (outputs : List (String × Value)) (batch : List DAGNode) :
    ∀ r ∈ batchCompute d rex w execInput outputs batch,
      syncKind r.node.type = true → r.node.type ≠ NodeType.prompt →
      ∃ v, r.result = Except.ok v := by
  intro r hr hsy hnp
  unfold batchCompute at hr
  rw [List.mem_map] at hr
  obtain ⟨n, hn, hrn⟩ := hr
  cases hobj : objGet outputs n.id with
  | some v =>
    rw [hobj] at hrn
    rw [← hrn]
    exact ⟨v, rfl⟩
  | none =>
    rw [hobj] at hrn
    rw [← hrn] at hsy hnp ⊢
    have hsy2 : syncKind n.type = true := hsy
    have hnp2 : n.type ≠ NodeType.prompt := hnp
    show ∃ v, dispatchNode d rex execInput n (gatherInputs w outputs execInput n) =
      Except.ok v
    unfold dispatchNode
    cases hty : n.type with
    | input => exact ⟨_, rfl⟩
    | output => exact ⟨_, rfl⟩
    | merge => exact ⟨_, rfl⟩
    | sensor => exact ⟨_, rfl⟩
    | prompt => exact absurd hty hnp2
    | agent => rw [hty] at hsy2; exact Bool.noConfusion hsy2
    | tool => rw [hty] at hsy2; exact Bool.noConfusion hsy2
    | condition => rw [hty] at hsy2; exact Bool.noConfusion hsy2
    | loop => rw [hty] at hsy2; exact Bool.noConfusion hsy2
    | parallel => rw [hty] at hsy2; exact Bool.noConfusion hsy2
    | transform => rw [hty] at hsy2; exact Bool.noConfusion hsy2
    | code => rw [hty] at hsy2; exact Bool.noConfusion hsy2
    | http => rw [hty] at hsy2; exact Bool.noConfusion hsy2

/-- The empty trace trivially has no start after an error. -/
theorem nsae_nil : NoStartAfterError [] := by
  intro i j _ _ _ _ _ h
  simp at h

/-- Appending an error-free prefix preserves the property. -/
theorem nsae_append_of_err_free (l1 l2 : List Event)
    (h1 : ∀ nid err, Event.nodeError nid err ∉ l1)
    (h2 : NoStartAfterError l2) : NoStartAfterError (l1 ++ l2) := by
  intro i j nid err nid2 ty hij herr hstart
  by_cases hi : i < l1.length
  · rw [List.get?_append hi] at herr
    exact h1 nid err (List.get?_mem herr)
  · push_neg at hi
    rw [List.get?_append_right hi] at herr
    have hj : l1.length ≤ j := le_trans hi (le_of_lt hij)
    rw [List.get?_append_right hj] at hstart
    exact h2 (i - l1.length) (j - l1.length) nid err nid2 ty (by omega) herr hstart

/-- An error-free block followed by a start-free block satisfies the
property. -/
theorem nsae_terminal (l1 l2 : List Event)
    (h1 : ∀ nid err, Event.nodeError nid err ∉ l1)
    (h2 : ∀ nid ty, Event.nodeStart nid ty ∉ l2) : NoStartAfterError (l1 ++ l2) := by
  intro i j nid err nid2 ty hij herr hstart
  by_cases hi : i < l1.length
  · rw [List.get?_append hi] at herr
    exact h1 nid err (List.get?_mem herr)
  · push_neg at hi
    have hj : l1.length ≤ j := le_trans hi (le_of_lt hij)
    rw [List.get?_append_right hj] at hstart
    exact h2 nid2 ty (List.get?_mem hstart)

/-- The decrement loop only enqueues nodes of the workflow. -/
theorem decrementTargets_mem_nodes (w : Workflow) :
    ∀ (ts : List String) (rem : String → Nat) (q : List DAGNode),
      (∀ n ∈ q, n ∈ w.nodes) →
      ∀ n ∈ (decrementTargets w ts rem q).2, n ∈ w.nodes := by
  intro ts
  induction ts with
  | nil => intro rem q hq n hn; exact hq n hn
  | cons t0 rest ih =>
    intro rem q hq n hn
    simp only [decrementTargets] at hn
    refine ih _ _ ?_ n hn
    intro m hm
    by_cases hdeg : ((if rem t0 = 0 then 1 else rem t0) - 1) = 0
    · rw [if_pos hdeg] at hm
      cases hfind : w.nodes.find? (fun x => x.id == t0) with
      | none =>
        rw [hfind] at hm
        exact hq m hm
      | some mm =>
        rw [hfind] at hm
        rcases List.mem_append.mp hm with hm | hm
        · exact hq m hm
        · rw [List.mem_singleton] at hm
          subst hm
          exact List.mem_of_find?_eq_some hfind
    · rw [if_neg hdeg] at hm
      exact hq m hm

/-- Settlement step at a fulfilled member: decrement its downstream and
continue. -/
theorem processResults_cons_ok (w : Workflow) (r : NodeResult) (rest : List NodeResult)
    (rem : String → Nat) (queue : List DAGNode) (v : Value) (hok : r.result = .ok v) :
    processResults w (r :: rest) rem queue =
      processResults w rest
        (decrementTargets w (adjacency w.edges r.node.id) rem queue).1
        (decrementTargets w (adjacency w.edges r.node.id) rem queue).2 := by
  obtain ⟨rn, rres, rsk⟩ := r
  change rres = Except.ok v at hok
  subst hok
  rfl

/-- Settlement step at a rejected member: abort, naming the node. -/
theorem processResults_cons_err (w : Workflow) (r : NodeResult) (rest : List NodeResult)
    (rem : String → Nat) (queue : List DAGNode) (e : String) (herr : r.result = .error e) :
    processResults w (r :: rest) rem queue =
      .error ("Node " ++ r.node.id ++ " failed: " ++ e) := by
  obtain ⟨rn, rres, rsk⟩ := r
  change rres = Except.error e at herr
  subst herr
  rfl

/-- Every batch result's node was drained from the queue. -/
theorem batchCompute_node_mem (d : Oracle) (rex : RegexCompile) (w : Workflow) (input : Value)
    (outputs : List (String × Value)) (queue : List DAGNode) :
    ∀ r ∈ batchCompute d rex w input outputs queue, r.node ∈ queue := by
  intro r hr
  unfold batchCompute at hr
  rw [List.mem_map] at hr
  obtain ⟨n, hn, hrn⟩ := hr
  cases hobj : objGet outputs n.id with
  | some v =>
    rw [hobj] at hrn
    rw [← hrn]
    exact hn
  | none =>
    rw [hobj] at hrn
    rw [← hrn]
    exact hn

/-- The settlement loop only enqueues nodes of the workflow. -/
theorem processResults_mem_nodes (w : Workflow) :
    ∀ (rs : List NodeResult) (rem : String → Nat) (q : List DAGNode) x,
      (∀ n ∈ q, n ∈ w.nodes) →
      processResults w rs rem q = .ok x →
      ∀ n ∈ x.2, n ∈ w.nodes := by
  intro rs
  induction rs with
  | nil =>
    intro rem q x hq heq n hn
    injection heq with h
    rw [← h] at hn
    exact hq n hn
  | cons r rest ih =>
    intro rem q x hq heq n hn
    cases hres : r.result with
    | ok v =>
      rw [processResults_cons_ok w r rest rem q v hres] at heq
      exact ih _ _ x (decrementTargets_mem_nodes w _ rem q hq) heq n hn
    | error e =>
      rw [processResults_cons_err w r rest rem q e hres] at heq
      exact Except.noConfusion heq

/-- Unfolding equation of the scheduling loop's main branch. -/
theorem runDAGLoop_succ_eq (d : Oracle) (rex : RegexCompile) (w : Workflow) (input : Value)
    (stopAt : Nat → Bool) (f k : Nat) (rem : String → Nat) (outputs : List (String × Value))
    (queue : List DAGNode) (hstop : ¬(queue.isEmpty || stopAt k) = true) :
    runDAGLoop d rex w input stopAt (f + 1) k rem outputs queue =
      match processResults w (batchCompute d rex w input outputs queue) rem [] with
      | .error e =>
        (batchPrefixEvents (batchCompute d rex w input outputs queue) ++
          batchAsyncEvents (batchCompute d rex w input outputs queue), .error e)
      | .ok (rem1, queue1) =>
        (batchPrefixEvents (batchCompute d rex w input outputs queue) ++
          batchAsyncEvents (batchCompute d rex w input outputs queue) ++
          (runDAGLoop d rex w input stopAt f (k + 1) rem1
            (applyOutputs outputs (batchCompute d rex w input outputs queue)) queue1).1,
         (runDAGLoop d rex w input stopAt f (k + 1) rem1
            (applyOutputs outputs (batchCompute d rex w input outputs queue)) queue1).2) := by
  simp only [runDAGLoop]
  rw [if_neg hstop]

/-- The scheduling loop is fail-fast at batch granularity: with no
prompt-kind node among the queue's nodes (all drawn from the workflow) the
synchronous prefix cannot reject, so after a node:error no node:start
follows; and unconditionally any node:error forces the loop's rejection,
named after a failed node. -/
theorem runDAGLoop_fail_fast (d : Oracle) (rex : RegexCompile) (w : Workflow) (input : Value)
    (stopAt : Nat → Bool) :
    ∀ fuel k rem outputs queue,
      (∀ n ∈ queue, n ∈ w.nodes) →
      ((∀ n ∈ w.nodes, n.type ≠ NodeType.prompt) →
        NoStartAfterError (runDAGLoop d rex w input stopAt fuel k rem outputs queue).1) ∧
      ErrorSurfaces (runDAGLoop d rex w input stopAt fuel k rem outputs queue).1
        (runDAGLoop d rex w input stopAt fuel k rem outputs queue).2 := by
  intro fuel
  induction fuel with
  | zero =>
    intro k rem outputs queue hq
    refine ⟨fun _ => nsae_nil, ?_⟩
    rintro ⟨nid, err, hmem⟩
    exact absurd hmem (List.not_mem_nil _)
  | succ f ih =>
    intro k rem outputs queue hq
    by_cases hstop : (queue.isEmpty || stopAt k) = true
    · have hred : runDAGLoop d rex w input stopAt (f + 1) k rem outputs queue =
          ([], if stopAt k then .error ("Execution stopped") else .ok outputs) := by
        simp only [runDAGLoop]
        rw [if_pos hstop]
      rw [hred]
      refine ⟨fun _ => nsae_nil, ?_⟩
      rintro ⟨nid, err, hmem⟩
      exact absurd hmem (List.not_mem_nil _)
    · have hprefix_ok : (∀ n ∈ w.nodes, n.type ≠ NodeType.prompt) →
          ∀ nid err, Event.nodeError nid err ∉
            batchPrefixEvents (batchCompute d rex w input outputs queue) := by
        intro hnp nid err hmem
        obtain ⟨r, hr, hsk, hres, hid, hsy⟩ := batchPrefixEvents_err_inv _ nid err hmem
        have hnode : r.node ∈ queue := batchCompute_node_mem d rex w input outputs queue r hr
        have hnp2 : r.node.type ≠ NodeType.prompt := hnp r.node (hq r.node hnode)
        obtain ⟨v, hv⟩ := batchCompute_sync_ok d rex w input outputs queue r hr hsy hnp2
        rw [hv] at hres
        exact Except.noConfusion hres
      cases hproc : processResults w (batchCompute d rex w input outputs queue) rem [] with
      | error e =>
        have hred : runDAGLoop d rex w input stopAt (f + 1) k rem outputs queue =
            (batchPrefixEvents (batchCompute d rex w input outputs queue) ++
              batchAsyncEvents (batchCompute d rex w input outputs queue), .error e) := by
          simp only [runDAGLoop]
          rw [if_neg hstop, hproc]
        rw [hred]
        constructor
        · intro hnp
          exact nsae_terminal _ _ (hprefix_ok hnp) (batchAsyncEvents_no_start _)
        · intro _
          obtain ⟨r0, hr0, err0, hres0, he⟩ := processResults_error_shape w _ rem [] e hproc
          have hsk0 : r0.skipped = false :=
            batchCompute_error_not_skipped d rex w input outputs queue r0 hr0 err0 hres0
          have hmem0 := settleEvent_mem_batch _ r0 hr0 hsk0
          have hse : settleEvent r0 = Event.nodeError r0.node.id err0 := by
            unfold settleEvent
            rw [hres0]
          rw [hse] at hmem0
          exact ⟨r0.node.id, err0, by rw [he], hmem0⟩
      | ok pr =>
        obtain ⟨rem1, queue1⟩ := pr
        have hred : runDAGLoop d rex w input stopAt (f + 1) k rem outputs queue =
            (batchPrefixEvents (batchCompute d rex w input outputs queue) ++
              batchAsyncEvents (batchCompute d rex w input outputs queue) ++
              (runDAGLoop d rex w input stopAt f (k + 1) rem1
                (applyOutputs outputs (batchCompute d rex w input outputs queue)) queue1).1,
             (runDAGLoop d rex w input stopAt f (k + 1) rem1
                (applyOutputs outputs (batchCompute d rex w input outputs queue)) queue1).2) := by
          rw [runDAGLoop_succ_eq d rex w input stopAt f k rem outputs queue hstop, hproc]
        rw [hred]
        have hok : ∀ r ∈ batchCompute d rex w input outputs queue,
            ∃ v, r.result = Except.ok v :=
          processResults_ok_all_ok w _ rem [] (rem1, queue1) hproc
        have hfree : ∀ nid err,
            Event.nodeError nid err ∉
              batchPrefixEvents (batchCompute d rex w input outputs queue) ++
                batchAsyncEvents (batchCompute d rex w input outputs queue) := by
          intro nid err hmem
          rcases List.mem_append.mp hmem with hm | hm
          · obtain ⟨r, hr, _, hres, _, _⟩ := batchPrefixEvents_err_inv _ nid err hm
            obtain ⟨v, hv⟩ := hok r hr
            rw [hv] at hres
            exact Except.noConfusion hres
          · obtain ⟨r, hr, _, hres, _⟩ := batchAsyncEvents_err_inv _ nid err hm
            obtain ⟨v, hv⟩ := hok r hr
            rw [hv] at hres
            exact Except.noConfusion hres
        have hq1 : ∀ n ∈ queue1, n ∈ w.nodes :=
          processResults_mem_nodes w _ rem [] (rem1, queue1)
            (fun n hn => absurd hn (List.not_mem_nil n)) hproc
        obtain ⟨iha, ihb⟩ := ih (k + 1) rem1
          (applyOutputs outputs (batchCompute d rex w input outputs queue)) queue1 hq1
        constructor
        · intro hnp
          exact nsae_append_of_err_free _ _ hfree (iha hnp)
        · rintro ⟨nid, err, hmem⟩
          rcases List.mem_append.mp hmem with hm | hm
          · exact absurd hm (hfree nid err)
          · obtain ⟨nid2, err2, hres2, hmem2⟩ := ihb ⟨nid, err, hm⟩
            exact ⟨nid2, err2, hres2, List.mem_append_right _ hmem2⟩

/-- Case-split form of DAGRunner.run: either no start node exists, or the
run is the scheduling loop's trace with the result mapped through
pickResult. -/
theorem runDAG_eq (d : Oracle) (rex : RegexCompile) (w : Workflow) (input : Value)
    (stopAt : Nat → Bool) :
    runDAG d rex w input stopAt =
      if (w.nodes.filter (fun n => inDeg w.edges n.id == 0)).isEmpty then
        ([], .error ("No starting nodes found in workflow"))
      else
        ((runDAGLoop d rex w input stopAt (w.nodes.length + 1) 0 (fun t => inDeg w.edges t)
            (((w.nodes.filter (fun n => inDeg w.edges n.id == 0)).filter
              (fun n => n.type == NodeType.input)).foldl (fun acc n => objSet acc n.id input) [])
            (w.nodes.filter (fun n => inDeg w.edges n.id == 0))).1,
         (runDAGLoop d rex w input stopAt (w.nodes.length + 1) 0 (fun t => inDeg w.edges t)
            (((w.nodes.filter (fun n => inDeg w.edges n.id == 0)).filter
              (fun n => n.type == NodeType.input)).foldl (fun acc n => objSet acc n.id input) [])
            (w.nodes.filter (fun n => inDeg w.edges n.id == 0))).2.map (pickResult w)) := by
  simp only [runDAG]
  by_cases hs : (w.nodes.filter (fun n => inDeg w.edges n.id == 0)).isEmpty = true
  · rw [if_pos hs, if_pos hs]
  · rw [if_neg hs, if_neg hs]
    cases hl : runDAGLoop d rex w input stopAt (w.nodes.length + 1) 0 (fun t => inDeg w.edges t)
        (((w.nodes.filter (fun n => inDeg w.edges n.id == 0)).filter
          (fun n => n.type == NodeType.input)).foldl (fun acc n => objSet acc n.id input) [])
        (w.nodes.filter (fun n => inDeg w.edges n.id == 0)) with
    | mk evs res =>
      cases res with
      | ok outs => rfl
      | error e => rfl

/-- C6 (amended).  Fail-fast: in a workflow without prompt-kind nodes,
after a node:error event no further node:start is emitted — every other
fallible kind is awaited, so it settles only after all batch members'
node:start events, and no new batch is scheduled after a rejection.  The
exception is the prompt kind, whose new RegExp throws synchronously inside
the batch prefix so its node:error can precede a later member's node:start
(see the counterexample prompt_error_before_start).  Unconditionally, any
node:error forces termination by a rejection carrying a failed node's
error; in the S4 chain A(input) → B(failing transform) → C(output), C
never emits node:start and the run rejects with B's error. -/
theorem nodeError_fail_fast_amended (d : Oracle) (rex : RegexCompile) (w : Workflow)
    (input : Value) (stopAt : Nat → Bool) :
    ((∀ n ∈ w.nodes, n.type ≠ NodeType.prompt) →
      NoStartAfterError (runDAG d rex w input stopAt).1) ∧
    ErrorSurfaces (runDAG d rex w input stopAt).1 (runDAG d rex w input stopAt).2 ∧
    (∀ ty, Event.nodeStart ("C") ty ∉
      (runDAG oracleFailB rexOkAll chainWorkflow (Value.num 3) neverStop).1) ∧
    (runDAG oracleFailB rexOkAll chainWorkflow (Value.num 3) neverStop).2 =
      .error ("Node B failed: nonexistent is not defined") := by
  refine ⟨?_, ?_, ?_, rfl⟩
  · intro hnp
    rw [runDAG_eq]
    by_cases hs : (w.nodes.filter (fun n => inDeg w.edges n.id == 0)).isEmpty = true
    · rw [if_pos hs]
      exact nsae_nil
    · rw [if_neg hs]
      exact (runDAGLoop_fail_fast d rex w input stopAt _ _ _ _ _
        (fun n hn => (List.mem_filter.mp hn).1)).1 hnp
  · rw [runDAG_eq]
    by_cases hs : (w.nodes.filter (fun n => inDeg w.edges n.id == 0)).isEmpty = true
    · rw [if_pos hs]
      rintro ⟨nid, err, hmem⟩
      exact absurd hmem (List.not_mem_nil _)
    · rw [if_neg hs]
      obtain ⟨_, hb⟩ := runDAGLoop_fail_fast d rex w input stopAt (w.nodes.length + 1) 0
        (fun t => inDeg w.edges t)
        (((w.nodes.filter (fun n => inDeg w.edges n.id == 0)).filter
          (fun n => n.type == NodeType.input)).foldl (fun acc n => objSet acc n.id input) [])
        (w.nodes.filter (fun n => inDeg w.edges n.id == 0))
        (fun n hn => (List.mem_filter.mp hn).1)
      rintro ⟨nid, err, hmem⟩
      obtain ⟨nid2, err2, hres2, hmem2⟩ := hb ⟨nid, err, hmem⟩
      refine ⟨nid2, err2, ?_, hmem2⟩
      rw [hres2]
      rfl
  · intro ty hmem
    have h : (runDAG oracleFailB rexOkAll chainWorkflow (Value.num 3) neverStop).1 =
        [Event.nodeStart ("B") NodeType.transform,
         Event.nodeError ("B") ("nonexistent is not defined")] := rfl
    rw [h] at hmem
    rcases List.mem_cons.mp hmem with h2 | h2
    · exact Event.noConfusion h2 (fun hc _ => by exact absurd hc (by decide))
    · rcases List.mem_cons.mp h2 with h3 | h3
      · exact Event.noConfusion h3
      · exact absurd h3 (List.not_mem_nil _)

/-- Counterexample for C6 as stated: in the two-start batch P(prompt, with
the invalid variable name "(") before X(output), P's new RegExp throws
inside the synchronous prefix, so node:error(P) at index 1 precedes
node:start(X) at index 2 — a node:start after a node:error.  The current
batch still drains and the execution rejects with P's error. -/
theorem prompt_error_before_start :
    (runDAG oracleNone rexParen promptBatchWorkflow (Value.obj []) neverStop).1 =
      [Event.nodeStart ("P") NodeType.prompt,
       Event.nodeError ("P") ("Invalid regular expression"),
       Event.nodeStart ("X") NodeType.output,
       Event.nodeComplete ("X") (Value.obj [])] ∧
    ¬ NoStartAfterError
        (runDAG oracleNone rexParen promptBatchWorkflow (Value.obj []) neverStop).1 ∧
    (runDAG oracleNone rexParen promptBatchWorkflow (Value.obj []) neverStop).2 =
      .error ("Node P failed: Invalid regular expression") := by
  refine ⟨rfl, ?_, rfl⟩
  intro h
  exact h 1 2 ("P") ("Invalid regular expression") ("X") NodeType.output (by decide) rfl rfl

/-- Witness for C6 on the S4 run: the chain has no prompt node, its trace
has the node:error at index 1 and no node:start at any later index. -/
theorem nodeError_fail_fast_amended_witness :
    (∀ n ∈ chainWorkflow.nodes, n.type ≠ NodeType.prompt) ∧
    0 < 2 ∧
    (runDAG oracleFailB rexOkAll chainWorkflow (Value.num 3) neverStop).1.get? 2 ≠
      some (Event.nodeStart ("C") NodeType.output) :=
  ⟨by decide, by decide,
   (nodeError_fail_fast_amended oracleFailB rexOkAll chainWorkflow (Value.num 3) neverStop).1
     (by decide) 1 2 ("B") ("nonexistent is not defined") ("C") NodeType.output
     (by decide) rfl⟩

/-- Adjacency membership coincides with the edge relation. -/
theorem mem_adjacency (edges : List DAGEdge) (x v : String) :
    v ∈ adjacency edges x ↔ EdgeRel edges x v := by
  unfold adjacency EdgeRel
  rw [List.mem_map]
  constructor
  · rintro ⟨e, he, rfl⟩
    rw [List.mem_filter] at he
    exact ⟨e, he.1, by simpa using he.2, rfl⟩
  · rintro ⟨e, he, hs, ht⟩
    exact ⟨e, List.mem_filter.mpr ⟨he, by simpa using hs⟩, ht⟩

/-- Paths extend along an edge at the back. -/
theorem epath_append_edge {edges : List DAGEdge} {a b c : String}
    (hp : EPath edges a b) (he : EdgeRel edges b c) : EPath edges a c := by
  revert he
  induction hp with
  | single h => intro he; exact .cons h (.single he)
  | cons h _ ih => intro he; exact .cons h (ih he)

/-- Every member of the recursion stack has a path to the stack's head
target. -/
theorem chainTo_mem_epath (edges : List DAGEdge) :
    ∀ (stack : List String) (m v : String),
      ChainTo edges stack m → v ∈ stack → EPath edges v m := by
  intro stack
  induction stack with
  | nil => intro m v _ hv; exact absurd hv (List.not_mem_nil _)
  | cons s rest ih =>
    intro m v hchain hv
    obtain ⟨hsm, hrest⟩ := hchain
    rcases List.mem_cons.mp hv with h | h
    · rw [h]; exact .single hsm
    · exact epath_append_edge (ih s v hrest h) hsm

/-- A back edge discovered by the neighbor loop closes a directed cycle. -/
theorem dfsNeighbors_sound (edges : List DAGEdge)
    (visit : List String → List String → String → Option (Bool × List String))
    (hv : ∀ vis stk x res, ChainTo edges stk x → visit vis stk x = some res →
      res.1 = true → HasCycle edges) :
    ∀ (neighbors visited stack0 : List String) (m : String) (res : Bool × List String),
      ChainTo edges stack0 m →
      (∀ v ∈ neighbors, EdgeRel edges m v) →
      dfsNeighbors visit visited (m :: stack0) neighbors = some res →
      res.1 = true → HasCycle edges := by
  intro neighbors
  induction neighbors with
  | nil =>
    intro visited stack0 m res _ _ h htrue
    unfold dfsNeighbors at h
    injection h with h1
    rw [← h1] at htrue
    exact absurd htrue (by simp)
  | cons v rest ih =>
    intro visited stack0 m res hchain hneigh h htrue
    unfold dfsNeighbors at h
    by_cases hvis : v ∈ visited
    · rw [if_pos hvis] at h
      by_cases hstk : v ∈ m :: stack0
      · rw [if_pos hstk] at h
        have hev : EdgeRel edges m v := hneigh v (List.mem_cons_self _ _)
        rcases List.mem_cons.mp hstk with h1 | h1
        · subst h1
          exact ⟨v, .single hev⟩
        · exact ⟨v, epath_append_edge (chainTo_mem_epath edges stack0 m v hchain h1) hev⟩
      · rw [if_neg hstk] at h
        exact ih visited stack0 m res hchain
          (fun x hx => hneigh x (List.mem_cons_of_mem _ hx)) h htrue
    · rw [if_neg hvis] at h
      cases hcall : visit visited (m :: stack0) v with
      | none => rw [hcall] at h; exact Option.noConfusion h
      | some pr =>
        rw [hcall] at h
        cases pr with
        | mk b vis1 =>
          cases b with
          | true =>
            exact hv visited (m :: stack0) v (true, vis1)
              ⟨hneigh v (List.mem_cons_self _ _), hchain⟩ hcall rfl
          | false =>
            exact ih vis1 stack0 m res hchain
              (fun x hx => hneigh x (List.mem_cons_of_mem _ hx)) h htrue

/-- A truthful hasCycle answer really exhibits a directed cycle. -/
theorem dfsVisit_sound (edges : List DAGEdge) (adj : String → List String)
    (hadj : ∀ x v, v ∈ adj x → EdgeRel edges x v) :
    ∀ (fuel : Nat) (visited stack : List String) (n : String) (res : Bool × List String),
      ChainTo edges stack n → dfsVisit adj fuel visited stack n = some res →
      res.1 = true → HasCycle edges := by
  intro fuel
  induction fuel with
  | zero => intro visited stack n res _ h _; exact Option.noConfusion h
  | succ f ih =>
    intro visited stack n res hchain h htrue
    unfold dfsVisit at h
    exact dfsNeighbors_sound edges (dfsVisit adj f)
      (fun vis stk x r hc hcall ht => ih vis stk x r hc hcall ht)
      (adj n) (n :: visited) stack n res hchain (fun v hv => hadj n v hv) h htrue

/-- The reference-integrity pass accepts exactly the edge lists whose
endpoints are all known. -/
theorem checkEdges_ok_iff (ids : List String) :
    ∀ edges, checkEdges ids edges = .ok () ↔
      ∀ e ∈ edges, e.source ∈ ids ∧ e.target ∈ ids := by
  intro edges
  induction edges with
  | nil => simp [checkEdges]
  | cons e rest ih =>
    unfold checkEdges
    by_cases hs : e.source ∈ ids
    · rw [if_pos hs]
      by_cases ht : e.target ∈ ids
      · rw [if_pos ht, ih]
        constructor
        · intro hall x hx
          rcases List.mem_cons.mp hx with h1 | h1
          · rw [h1]; exact ⟨hs, ht⟩
          · exact hall x h1
        · intro hall x hx
          exact hall x (List.mem_cons_of_mem _ hx)
      · rw [if_neg ht]
        constructor
        · intro h; exact Except.noConfusion h
        · intro hall; exact absurd (hall e (List.mem_cons_self _ _)).2 ht
    · rw [if_neg hs]
      constructor
      · intro h; exact Except.noConfusion h
      · intro hall; exact absurd (hall e (List.mem_cons_self _ _)).1 hs

/-- A dangling endpoint makes the reference-integrity pass fail, naming the
(first) missing endpoint. -/
theorem checkEdges_error_naming (ids : List String) :
    ∀ edges, (∃ e ∈ edges, e.source ∉ ids ∨ e.target ∉ ids) →
      ∃ x, x ∉ ids ∧
        (checkEdges ids edges = .error ("Edge references non-existent source node: " ++ x) ∨
         checkEdges ids edges = .error ("Edge references non-existent target node: " ++ x)) := by
  intro edges
  induction edges with
  | nil =>
    rintro ⟨e, he, _⟩
    exact absurd he (List.not_mem_nil _)
  | cons e rest ih =>
    rintro ⟨e0, he0, hbad⟩
    unfold checkEdges
    by_cases hs : e.source ∈ ids
    · rw [if_pos hs]
      by_cases ht : e.target ∈ ids
      · rw [if_pos ht]
        rcases List.mem_cons.mp he0 with h1 | h1
        · rw [h1] at hbad
          rcases hbad with h2 | h2
          exacts [absurd hs h2, absurd ht h2]
        · exact ih ⟨e0, h1, hbad⟩
      · rw [if_neg ht]
        exact ⟨e.target, ht, Or.inr rfl⟩
    · rw [if_neg hs]
      exact ⟨e.source, hs, Or.inl rfl⟩

/-- validateDAG is the reference check bound before the cycle check. -/
theorem validateDAG_eq_bind (nodes : List DAGNode) (edges : List DAGEdge) :
    validateDAG nodes edges =
      match checkEdges (nodeIdList nodes) edges with
      | .error e => .error e
      | .ok _ => validateCyclesGo (adjacency edges) (nodes.length + 1) nodes [] := by
  unfold validateDAG
  cases checkEdges (nodeIdList nodes) edges with
  | error e => rfl
  | ok u => cases u; rfl

/-- The projection of the instrumented neighbor loop coincides with the
validator's neighbor loop, whenever the visit pair agrees likewise. -/
theorem dfsNeighborsPost_proj
    (visit : List String → List String → String → Option (Bool × List String))
    (visitP : List String → List String → List String → String →
      Option (Bool × List String × List String))
    (hv : ∀ vis stk post x,
      (visitP vis stk post x).map (fun r => (r.1, r.2.1)) = visit vis stk x) :
    ∀ (neighbors visited stack post : List String),
      (dfsNeighborsPost visitP visited stack post neighbors).map (fun r => (r.1, r.2.1)) =
        dfsNeighbors visit visited stack neighbors := by
  intro neighbors
  induction neighbors with
  | nil => intro visited stack post; rfl
  | cons v rest ih =>
    intro visited stack post
    unfold dfsNeighborsPost dfsNeighbors
    by_cases hvis : v ∈ visited
    · rw [if_pos hvis, if_pos hvis]
      by_cases hstk : v ∈ stack
      · rw [if_pos hstk, if_pos hstk]
        rfl
      · rw [if_neg hstk, if_neg hstk]
        exact ih visited stack post
    · rw [if_neg hvis, if_neg hvis]
      cases hcall : visitP visited stack post v with
      | none =>
        have hvn : visit visited stack v = none := by
          rw [← hv visited stack post v, hcall]
          rfl
        rw [hvn]
        rfl
      | some r =>
        obtain ⟨b, vis1, po1⟩ := r
        have hvs : visit visited stack v = some (b, vis1) := by
          rw [← hv visited stack post v, hcall]
          rfl
        rw [hvs]
        cases b with
        | true => rfl
        | false => exact ih vis1 stack po1

/-- The projection of the instrumented DFS is the validator's DFS. -/
theorem dfsVisitPost_proj (adj : String → List String) :
    ∀ (fuel : Nat) (visited stack post : List String) (n : String),
      (dfsVisitPost adj fuel visited stack post n).map (fun r => (r.1, r.2.1)) =
        dfsVisit adj fuel visited stack n := by
  intro fuel
  induction fuel with
  | zero => intro visited stack post n; rfl
  | succ f ih =>
    intro visited stack post n
    unfold dfsVisitPost dfsVisit
    have h := dfsNeighborsPost_proj (dfsVisit adj f) (dfsVisitPost adj f)
      (fun vis stk po x => ih vis stk po x) (adj n) (n :: visited) (n :: stack) post
    cases hcall : dfsNeighborsPost (dfsVisitPost adj f) (n :: visited) (n :: stack) post (adj n) with
    | none =>
      rw [hcall] at h
      rw [← h]
    | some r =>
      obtain ⟨b, vis1, po1⟩ := r
      rw [hcall] at h
      rw [← h]
      cases b with
      | true => rfl
      | false => rfl

/-- Position order is stable under extending the list at the back. -/
theorem before_append (L L2 : List String) (a b : String) (h : Before L a b) :
    Before (L ++ L2) a b := by
  obtain ⟨i, j, hij, ha, hb⟩ := h
  have hj : j < L.length := by
    rcases List.get?_eq_some.mp hb with ⟨hlt, _⟩
    exact hlt
  have hi : i < L.length := lt_trans hij hj
  refine ⟨i, j, hij, ?_, ?_⟩
  · rw [List.get?_append hi]; exact ha
  · rw [List.get?_append hj]; exact hb

/-- Any list member is positioned before a freshly appended element. -/
theorem before_snoc (L : List String) (a b : String) (ha : a ∈ L) :
    Before (L ++ [b]) a b := by
  obtain ⟨i, hgi⟩ := List.mem_iff_get?.mp ha
  have hi : i < L.length := by
    rcases List.get?_eq_some.mp hgi with ⟨hlt, _⟩
    exact hlt
  refine ⟨i, L.length, hi, ?_, ?_⟩
  · rw [List.get?_append hi]; exact hgi
  · rw [List.get?_append_right (Nat.le_refl _)]
    simp

/-- Entering a node preserves the DFS invariant: mark it visited and push it
on the recursion stack. -/
theorem dfsInv_push (adj : String → List String) (visited stack L : List String) (n : String)
    (hinv : DFSInv adj visited stack L) (hn : n ∉ visited) :
    DFSInv adj (n :: visited) (n :: stack) L := by
  obtain ⟨ha, hb, hc, hd⟩ := hinv
  refine ⟨?_, hb, ?_, hd⟩
  · intro x
    rw [List.mem_cons, ha x, List.mem_cons]
    tauto
  · intro x hx hmem
    rcases List.mem_cons.mp hmem with h1 | h1
    · rw [h1] at hx
      exact hn ((ha n).mpr (Or.inl hx))
    · exact hc x hx h1

/-- Leaving a node preserves the DFS invariant: pop it from the stack and
append it to the postorder list once all its successors are finished. -/
theorem dfsInv_pop (adj : String → List String) (vis stack L : List String) (n : String)
    (hinv : DFSInv adj vis (n :: stack) L) (hadjn : ∀ v ∈ adj n, v ∈ L)
    (hnstack : n ∉ stack) :
    DFSInv adj vis stack (L ++ [n]) := by
  obtain ⟨ha, hb, hc, hd⟩ := hinv
  have hnL : n ∉ L := fun h => hc n h (List.mem_cons_self _ _)
  refine ⟨?_, ?_, ?_, ?_⟩
  · intro x
    rw [ha x, List.mem_append, List.mem_singleton, List.mem_cons]
    tauto
  · rw [List.nodup_append]
    refine ⟨hb, List.nodup_singleton _, ?_⟩
    intro x hx hx2
    rw [List.mem_singleton] at hx2
    rw [hx2] at hx
    exact hnL hx
  · intro x hx hmem
    rcases List.mem_append.mp hx with h1 | h1
    · exact hc x h1 (List.mem_cons_of_mem _ hmem)
    · rw [List.mem_singleton] at h1
      rw [h1] at hmem
      exact hnstack hmem
  · intro u hu v hv
    rcases List.mem_append.mp hu with h1 | h1
    · obtain ⟨hvL, hbef⟩ := hd u h1 v hv
      exact ⟨List.mem_append_left _ hvL, before_append L [n] v u hbef⟩
    · rw [List.mem_singleton] at h1
      have hvL := hadjn v (by rw [← h1]; exact hv)
      refine ⟨List.mem_append_left _ hvL, ?_⟩
      rw [h1]
      exact before_snoc L v n hvL

/-- The neighbor loop preserves the DFS invariant and finishes every scanned
neighbor, provided recursive visits do (the fuel induction hypothesis). -/
theorem dfsNeighborsPost_inv (adj : String → List String)
    (visitP : List String → List String → List String → String →
      Option (Bool × List String × List String))
    (hVC : ∀ vis stk po x res, DFSInv adj vis stk po → x ∉ vis →
      visitP vis stk po x = some res → res.1 = false →
      DFSInv adj res.2.1 stk res.2.2 ∧ x ∈ res.2.2 ∧ ∃ tail, res.2.2 = po ++ tail) :
    ∀ (neighbors visited stack po : List String)
      (res : Bool × List String × List String),
      DFSInv adj visited stack po →
      dfsNeighborsPost visitP visited stack po neighbors = some res →
      res.1 = false →
      DFSInv adj res.2.1 stack res.2.2 ∧ (∃ tail, res.2.2 = po ++ tail) ∧
        ∀ v ∈ neighbors, v ∈ res.2.2 := by
  intro neighbors
  induction neighbors with
  | nil =>
    intro visited stack po res hinv h hfalse
    unfold dfsNeighborsPost at h
    injection h with h1
    rw [← h1]
    exact ⟨hinv, ⟨[], by simp⟩, by simp⟩
  | cons v rest ih =>
    intro visited stack po res hinv h hfalse
    unfold dfsNeighborsPost at h
    by_cases hvis : v ∈ visited
    · rw [if_pos hvis] at h
      by_cases hstk : v ∈ stack
      · rw [if_pos hstk] at h
        injection h with h1
        rw [← h1] at hfalse
        exact absurd hfalse (by simp)
      · rw [if_neg hstk] at h
        obtain ⟨hinv2, ⟨tail, hext⟩, hall⟩ := ih visited stack po res hinv h hfalse
        refine ⟨hinv2, ⟨tail, hext⟩, ?_⟩
        intro x hx
        rcases List.mem_cons.mp hx with h1 | h1
        · rw [h1]
          rcases (hinv.1 v).mp hvis with h2 | h2
          · rw [hext]; exact List.mem_append_left _ h2
          · exact absurd h2 hstk
        · exact hall x h1
    · rw [if_neg hvis] at h
      cases hcall : visitP visited stack po v with
      | none => rw [hcall] at h; exact Option.noConfusion h
      | some r =>
        rw [hcall] at h
        obtain ⟨b, vis1, po1⟩ := r
        cases b with
        | true =>
          injection h with h1
          rw [← h1] at hfalse
          exact absurd hfalse (by simp)
        | false =>
          obtain ⟨hinv1, hvpo1, t1, hext1⟩ :=
            hVC visited stack po v (false, vis1, po1) hinv hvis hcall rfl
          obtain ⟨hinv2, ⟨t2, hext2⟩, hall⟩ := ih vis1 stack po1 res hinv1 h hfalse
          refine ⟨hinv2, ⟨t1 ++ t2, by rw [hext2, show po1 = po ++ t1 from hext1, List.append_assoc]⟩, ?_⟩
          intro x hx
          rcases List.mem_cons.mp hx with h1 | h1
          · rw [h1, hext2]
            exact List.mem_append_left _ hvpo1
          · exact hall x h1

/-- A false-returning instrumented DFS visit preserves the invariant,
finishes the visited node, and only appends to the postorder list. -/
theorem dfsVisitPost_inv (adj : String → List String) :
    ∀ (fuel : Nat) (visited stack po : List String) (n : String)
      (res : Bool × List String × List String),
      DFSInv adj visited stack po → n ∉ visited →
      dfsVisitPost adj fuel visited stack po n = some res → res.1 = false →
      DFSInv adj res.2.1 stack res.2.2 ∧ n ∈ res.2.2 ∧ ∃ tail, res.2.2 = po ++ tail := by
  intro fuel
  induction fuel with
  | zero => intro visited stack po n res _ _ h _; exact Option.noConfusion h
  | succ f ih =>
    intro visited stack po n res hinv hn h hfalse
    unfold dfsVisitPost at h
    cases hcall : dfsNeighborsPost (dfsVisitPost adj f) (n :: visited) (n :: stack) po (adj n) with
    | none => rw [hcall] at h; exact Option.noConfusion h
    | some r =>
      rw [hcall] at h
      obtain ⟨b, vis1, po1⟩ := r
      cases b with
      | true =>
        injection h with h1
        rw [← h1] at hfalse
        exact absurd hfalse (by simp)
      | false =>
        injection h with h1
        have hpush := dfsInv_push adj visited stack po n hinv hn
        obtain ⟨hinv1, ⟨t1, hext1⟩, hall⟩ :=
          dfsNeighborsPost_inv adj (dfsVisitPost adj f)
            (fun vis stk p x r hi hx hc hf => ih vis stk p x r hi hx hc hf)
            (adj n) (n :: visited) (n :: stack) po (false, vis1, po1) hpush hcall rfl
        have hnstack : n ∉ stack := fun hmem => hn ((hinv.1 n).mpr (Or.inr hmem))
        have hpop := dfsInv_pop adj vis1 stack po1 n hinv1 hall hnstack
        rw [← h1]
        exact ⟨hpop, List.mem_append_right _ (by simp),
          ⟨t1 ++ [n], by rw [show po1 = po ++ t1 from hext1, List.append_assoc]⟩⟩

/-- An accepting outer validator loop extends the postorder list into one
finishing every listed node while keeping it a reverse topological order. -/
theorem validateCyclesGo_postorder (adj : String → List String) (fuel : Nat) :
    ∀ (nodesRest : List DAGNode) (visited L : List String),
      DFSInv adj visited [] L →
      validateCyclesGo adj fuel nodesRest visited = .ok () →
      ∃ L2, L2.Nodup ∧ GoodAdj adj L2 ∧ (∀ n ∈ nodesRest, n.id ∈ L2) ∧
        ∀ x ∈ L, x ∈ L2 := by
  intro nodesRest
  induction nodesRest with
  | nil =>
    intro visited L hinv _
    exact ⟨L, hinv.2.1, hinv.2.2.2, by simp, fun x h => h⟩
  | cons node rest ih =>
    intro visited L hinv hok
    unfold validateCyclesGo at hok
    by_cases hvis : node.id ∈ visited
    · rw [if_pos hvis] at hok
      obtain ⟨L2, hnd, hga, hall, hsub⟩ := ih visited L hinv hok
      refine ⟨L2, hnd, hga, ?_, hsub⟩
      intro n hn
      rcases List.mem_cons.mp hn with h1 | h1
      · rw [h1]
        rcases (hinv.1 node.id).mp hvis with h2 | h2
        · exact hsub _ h2
        · exact absurd h2 (List.not_mem_nil _)
      · exact hall n h1
    · rw [if_neg hvis] at hok
      cases hcall : dfsVisit adj fuel visited [] node.id with
      | none => rw [hcall] at hok; exact Except.noConfusion hok
      | some pr =>
        obtain ⟨b, vis1⟩ := pr
        rw [hcall] at hok
        cases b with
        | true => exact Except.noConfusion hok
        | false =>
          have hproj := dfsVisitPost_proj adj fuel visited [] L node.id
          cases hpcall : dfsVisitPost adj fuel visited [] L node.id with
          | none =>
            rw [hpcall, hcall] at hproj
            exact Option.noConfusion hproj
          | some pres =>
            obtain ⟨b2, vis2, L1⟩ := pres
            rw [hpcall, hcall] at hproj
            rw [Option.map_some'] at hproj
            injection hproj with hpair
            have hb2 : b2 = false := congrArg Prod.fst hpair
            have hv2 : vis2 = vis1 := congrArg Prod.snd hpair
            obtain ⟨hinv1, hmem, t, hext⟩ :=
              dfsVisitPost_inv adj fuel visited [] L node.id (b2, vis2, L1) hinv hvis hpcall hb2
            rw [hv2] at hinv1
            obtain ⟨L2, hnd, hga, hall, hsub⟩ := ih vis1 L1 hinv1 hok
            refine ⟨L2, hnd, hga, ?_, ?_⟩
            · intro n hn
              rcases List.mem_cons.mp hn with h1 | h1
              · rw [h1]
                exact hsub _ hmem
              · exact hall n h1
            · intro x hx
              refine hsub x ?_
              rw [show L1 = L ++ t from hext]
              exact List.mem_append_left _ hx

/-- A pointwise filter implication bounds the filtered lengths. -/
theorem filter_sub_length {α : Type} (p q : α → Bool)
    (h : ∀ x, q x = true → p x = true) :
    ∀ l : List α, (l.filter q).length ≤ (l.filter p).length := by
  intro l
  induction l with
  | nil => exact Nat.le_refl _
  | cons a rest ih =>
    simp only [List.filter_cons]
    by_cases hq : q a = true
    · rw [if_pos hq, if_pos (h a hq)]
      simpa using ih
    · rw [if_neg hq]
      by_cases hp : p a = true
      · rw [if_pos hp]
        simp only [List.length_cons]
        omega
      · rw [if_neg hp]
        exact ih

/-- Visiting more identifiers never grows the unvisited count. -/
theorem unvisCount_mono (ids visited visited2 : List String)
    (h : ∀ x, x ∈ visited → x ∈ visited2) :
    unvisCount ids visited2 ≤ unvisCount ids visited := by
  unfold unvisCount
  apply filter_sub_length
  intro x hx
  simp only [decide_eq_true_eq] at hx ⊢
  exact fun hmem => hx (h x hmem)

/-- The unvisited count never exceeds the identifier count. -/
theorem unvisCount_le (ids visited : List String) :
    unvisCount ids visited ≤ ids.length :=
  List.length_filter_le _ _

/-- Marking an unvisited identifier strictly shrinks the count. -/
theorem unvisCount_cons_lt (visited : List String) (n : String) :
    ∀ ids : List String, n ∈ ids → n ∉ visited →
      unvisCount ids (n :: visited) < unvisCount ids visited := by
  intro ids
  induction ids with
  | nil => intro hn _; exact absurd hn (List.not_mem_nil _)
  | cons y rest ih =>
    intro hn hnv
    unfold unvisCount
    simp only [List.filter_cons]
    by_cases hy : y = n
    · rw [hy]
      rw [if_neg (by simp), if_pos (by simpa using hnv)]
      simp only [List.length_cons]
      have hmono : unvisCount rest (n :: visited) ≤ unvisCount rest visited :=
        unvisCount_mono rest visited (n :: visited)
          (fun x hx => List.mem_cons_of_mem _ hx)
      unfold unvisCount at hmono
      omega
    · have hsame : (decide (y ∉ n :: visited)) = (decide (y ∉ visited)) := by
        simp [List.mem_cons, hy]
      rw [hsame]
      rcases List.mem_cons.mp hn with h1 | h1
      · exact absurd h1.symm hy
      · have hlt := ih h1 hnv
        unfold unvisCount at hlt
        by_cases hv : (decide (y ∉ visited)) = true
        · rw [if_pos hv, if_pos hv]
          simp only [List.length_cons]
          omega
        · rw [if_neg hv, if_neg hv]
          exact hlt

/-- An unvisited known identifier witnesses a positive count. -/
theorem unvisCount_pos (ids visited : List String) (n : String)
    (hn : n ∈ ids) (hnv : n ∉ visited) : 0 < unvisCount ids visited := by
  unfold unvisCount
  rw [List.length_pos]
  exact List.ne_nil_of_mem (List.mem_filter.mpr ⟨hn, by simpa using hnv⟩)

/-- The neighbor loop only grows the visit set. -/
theorem dfsNeighbors_mono
    (visit : List String → List String → String → Option (Bool × List String))
    (hvm : ∀ vis stk x res, visit vis stk x = some res → ∀ y ∈ vis, y ∈ res.2) :
    ∀ (neighbors visited stack : List String) (res : Bool × List String),
      dfsNeighbors visit visited stack neighbors = some res →
      ∀ y ∈ visited, y ∈ res.2 := by
  intro neighbors
  induction neighbors with
  | nil =>
    intro visited stack res h y hy
    unfold dfsNeighbors at h
    injection h with h1
    rw [← h1]
    exact hy
  | cons v rest ih =>
    intro visited stack res h y hy
    unfold dfsNeighbors at h
    by_cases hvis : v ∈ visited
    · rw [if_pos hvis] at h
      by_cases hstk : v ∈ stack
      · rw [if_pos hstk] at h
        injection h with h1
        rw [← h1]
        exact hy
      · rw [if_neg hstk] at h
        exact ih visited stack res h y hy
    · rw [if_neg hvis] at h
      cases hcall : visit visited stack v with
      | none => rw [hcall] at h; exact Option.noConfusion h
      | some r =>
        rw [hcall] at h
        obtain ⟨b, vis1⟩ := r
        cases b with
        | true =>
          injection h with h1
          rw [← h1]
          exact hvm visited stack v (true, vis1) hcall y hy
        | false =>
          exact ih vis1 stack res h y (hvm visited stack v (false, vis1) hcall y hy)

/-- The DFS only grows the visit set. -/
theorem dfsVisit_mono (adj : String → List String) :
    ∀ (fuel : Nat) (visited stack : List String) (n : String) (res : Bool × List String),
      dfsVisit adj fuel visited stack n = some res → ∀ y ∈ visited, y ∈ res.2 := by
  intro fuel
  induction fuel with
  | zero => intro visited stack n res h; exact absurd h (by simp [dfsVisit])
  | succ f ih =>
    intro visited stack n res h y hy
    unfold dfsVisit at h
    exact dfsNeighbors_mono (dfsVisit adj f)
      (fun vis stk x r hc z hz => ih vis stk x r hc z hz)
      (adj n) (n :: visited) (n :: stack) res h y (List.mem_cons_of_mem _ hy)

/-- The neighbor loop cannot exhaust fuel while recursive visits cannot. -/
theorem dfsNeighbors_fuel (ids : List String) (c : Nat)
    (visit : List String → List String → String → Option (Bool × List String))
    (hvs : ∀ vis stk x, x ∈ ids → x ∉ vis → unvisCount ids vis ≤ c →
      visit vis stk x ≠ none)
    (hvm : ∀ vis stk x res, visit vis stk x = some res → ∀ y ∈ vis, y ∈ res.2) :
    ∀ (neighbors visited stack : List String),
      (∀ v ∈ neighbors, v ∈ ids) → unvisCount ids visited ≤ c →
      dfsNeighbors visit visited stack neighbors ≠ none := by
  intro neighbors
  induction neighbors with
  | nil =>
    intro visited stack _ _ h
    exact Option.noConfusion (h ▸ rfl : (some (false, visited) : Option (Bool × List String)) = none)
  | cons v rest ih =>
    intro visited stack hall hcount h
    unfold dfsNeighbors at h
    by_cases hvis : v ∈ visited
    · rw [if_pos hvis] at h
      by_cases hstk : v ∈ stack
      · rw [if_pos hstk] at h
        exact Option.noConfusion h
      · rw [if_neg hstk] at h
        exact ih visited stack (fun x hx => hall x (List.mem_cons_of_mem _ hx)) hcount h
    · rw [if_neg hvis] at h
      cases hcall : visit visited stack v with
      | none => exact hvs visited stack v (hall v (List.mem_cons_self _ _)) hvis hcount hcall
      | some r =>
        rw [hcall] at h
        obtain ⟨b, vis1⟩ := r
        cases b with
        | true => exact Option.noConfusion h
        | false =>
          have hsub : unvisCount ids vis1 ≤ c :=
            le_trans (unvisCount_mono ids visited vis1
              (fun y hy => hvm visited stack v (false, vis1) hcall y hy)) hcount
          exact ih vis1 stack (fun x hx => hall x (List.mem_cons_of_mem _ hx)) hsub h

/-- With fuel exceeding the unvisited count, the DFS cannot exhaust it. -/
theorem dfsVisit_fuel (ids : List String) (adj : String → List String)
    (hadj : ∀ x v, v ∈ adj x → v ∈ ids) :
    ∀ (fuel : Nat) (visited stack : List String) (n : String),
      n ∈ ids → n ∉ visited → unvisCount ids visited ≤ fuel →
      dfsVisit adj fuel visited stack n ≠ none := by
  intro fuel
  induction fuel with
  | zero =>
    intro visited stack n hn hnv hcount
    have := unvisCount_pos ids visited n hn hnv
    omega
  | succ f ih =>
    intro visited stack n hn hnv hcount
    unfold dfsVisit
    have hdrop : unvisCount ids (n :: visited) ≤ f := by
      have := unvisCount_cons_lt visited n ids hn hnv
      omega
    exact dfsNeighbors_fuel ids (unvisCount ids (n :: visited)) (dfsVisit adj f)
      (fun vis stk x hx hxv hc => ih vis stk x hx hxv (le_trans hc hdrop))
      (fun vis stk x res hc y hy => dfsVisit_mono adj f vis stk x res hc y hy)
      (adj n) (n :: visited) (n :: stack) (fun v hv => hadj n v hv) (Nat.le_refl _)

/-- A topological sort rules out directed cycles. -/
theorem isTopSort_no_cycle (nodes : List DAGNode) (edges : List DAGEdge) (ord : List String)
    (hts : IsTopSort nodes edges ord) : ¬ HasCycle edges := by
  obtain ⟨hnd, _, hedge⟩ := hts
  rintro ⟨a, hpath⟩
  have key : ∀ u v, EPath edges u v →
      ∃ i j, i < j ∧ ord.get? i = some u ∧ ord.get? j = some v := by
    intro u v hp
    induction hp with
    | single h =>
      obtain ⟨e, he, hs, ht⟩ := h
      obtain ⟨i, j, hij, hsi, htj⟩ := hedge e he
      rw [hs] at hsi
      rw [ht] at htj
      exact ⟨i, j, hij, hsi, htj⟩
    | cons h _ ih =>
      obtain ⟨e, he, hs, ht⟩ := h
      obtain ⟨i1, j1, h1, hsi1, htj1⟩ := hedge e he
      obtain ⟨i2, j2, h2, hsi2, htj2⟩ := ih
      rw [hs] at hsi1
      rw [ht] at htj1
      have hj1 : j1 < ord.length := by
        rcases List.get?_eq_some.mp htj1 with ⟨hlt, _⟩
        exact hlt
      have heq : j1 = i2 := by
        apply List.getElem?_inj hj1 hnd
        rw [← List.get?_eq_getElem?, ← List.get?_eq_getElem?, htj1, hsi2]
      refine ⟨i1, j2, by omega, hsi1, htj2⟩
  obtain ⟨i, j, hij, hi, hj⟩ := key a a hpath
  have hilen : i < ord.length := by
    rcases List.get?_eq_some.mp hi with ⟨hlt, _⟩
    exact hlt
  have : i = j := by
    apply List.getElem?_inj hilen hnd
    rw [← List.get?_eq_getElem?, ← List.get?_eq_getElem?, hi, hj]
  omega

/-- Without cycles and with adequate fuel, the outer validator loop
accepts. -/
theorem validateCyclesGo_complete (edges : List DAGEdge) (ids : List String)
    (hadjids : ∀ x v, v ∈ adjacency edges x → v ∈ ids)
    (hnocycle : ¬ HasCycle edges) (fuel : Nat) (hfuel : ids.length < fuel) :
    ∀ (nodesRest : List DAGNode) (visited : List String),
      (∀ n ∈ nodesRest, n.id ∈ ids) →
      validateCyclesGo (adjacency edges) fuel nodesRest visited = .ok () := by
  intro nodesRest
  induction nodesRest with
  | nil => intro visited _; rfl
  | cons node rest ih =>
    intro visited hall
    unfold validateCyclesGo
    by_cases hvis : node.id ∈ visited
    · rw [if_pos hvis]
      exact ih visited (fun n hn => hall n (List.mem_cons_of_mem _ hn))
    · rw [if_neg hvis]
      cases hcall : dfsVisit (adjacency edges) fuel visited [] node.id with
      | none =>
        exact absurd hcall
          (dfsVisit_fuel ids (adjacency edges) hadjids fuel visited [] node.id
            (hall node (List.mem_cons_self _ _)) hvis
            (le_of_lt (lt_of_le_of_lt (unvisCount_le ids visited) hfuel)))
      | some pr =>
        obtain ⟨b, vis1⟩ := pr
        cases b with
        | true =>
          exact absurd
            (dfsVisit_sound edges (adjacency edges)
              (fun x v hv => (mem_adjacency edges x v).mp hv)
              fuel visited [] node.id (true, vis1) trivial hcall rfl)
            hnocycle
        | false => exact ih vis1 (fun n hn => hall n (List.mem_cons_of_mem _ hn))

/-- A nodup reverse topological finish order yields a topological sort. -/
theorem topsort_of_goodAdj (nodes : List DAGNode) (edges : List DAGEdge) (L : List String)
    (hnd : L.Nodup) (hga : GoodAdj (adjacency edges) L)
    (hcov : ∀ n ∈ nodes, n.id ∈ L)
    (hwf : ∀ e ∈ edges, e.source ∈ nodeIdList nodes ∧ e.target ∈ nodeIdList nodes) :
    IsTopSort nodes edges L.reverse := by
  refine ⟨List.nodup_reverse.mpr hnd, ?_, ?_⟩
  · intro n hn
    rw [List.mem_reverse]
    exact hcov n hn
  · intro e he
    have hsrc : e.source ∈ L := by
      obtain ⟨n, hn, hid⟩ := List.mem_map.mp (hwf e he).1
      rw [← hid]
      exact hcov n hn
    have hedge : e.target ∈ adjacency edges e.source :=
      (mem_adjacency edges e.source e.target).mpr ⟨e, he, rfl, rfl⟩
    obtain ⟨htl, hbef⟩ := hga e.source hsrc e.target hedge
    obtain ⟨i, j, hij, hti, hsj⟩ := hbef
    have hjlen : j < L.length := by
      rcases List.get?_eq_some.mp hsj with ⟨hlt, _⟩
      exact hlt
    have hilen : i < L.length := lt_trans hij hjlen
    refine ⟨L.length - 1 - j, L.length - 1 - i, by omega, ?_, ?_⟩
    · rw [List.get?_reverse (by omega)]
      have h2 : L.length - 1 - (L.length - 1 - j) = j := by omega
      rw [h2]
      exact hsj
    · rw [List.get?_reverse (by omega)]
      have h2 : L.length - 1 - (L.length - 1 - i) = i := by omega
      rw [h2]
      exact hti

/-- C5.  The validator accepts exactly the graphs whose edges reference
known nodes at both endpoints and which admit a topological sort
(disconnected nodes are thereby accepted), and whenever an edge endpoint is
missing it fails naming a missing endpoint. -/
theorem validateDAG_characterisation (nodes : List DAGNode) (edges : List DAGEdge) :
    (validateDAG nodes edges = .ok () ↔
      EdgesWellFormed nodes edges ∧ TopSortExists nodes edges) ∧
    ((∃ e ∈ edges, e.source ∉ nodeIdList nodes ∨ e.target ∉ nodeIdList nodes) →
      ∃ x, x ∉ nodeIdList nodes ∧
        (validateDAG nodes edges = .error ("Edge references non-existent source node: " ++ x) ∨
         validateDAG nodes edges = .error ("Edge references non-existent target node: " ++ x))) := by
  constructor
  · constructor
    · intro hok
      rw [validateDAG_eq_bind] at hok
      cases hce : checkEdges (nodeIdList nodes) edges with
      | error e => rw [hce] at hok; exact Except.noConfusion hok
      | ok u =>
        cases u
        rw [hce] at hok
        have hwf : EdgesWellFormed nodes edges := (checkEdges_ok_iff _ edges).mp hce
        refine ⟨hwf, ?_⟩
        have hinv0 : DFSInv (adjacency edges) [] [] [] := by
          refine ⟨?_, List.nodup_nil, ?_, ?_⟩
          · intro x; simp
          · intro x hx; exact absurd hx (List.not_mem_nil _)
          · intro u hu; exact absurd hu (List.not_mem_nil _)
        obtain ⟨L2, hnd, hga, hall, _⟩ :=
          validateCyclesGo_postorder (adjacency edges) (nodes.length + 1) nodes [] [] hinv0 hok
        exact ⟨L2.reverse, topsort_of_goodAdj nodes edges L2 hnd hga hall hwf⟩
    · rintro ⟨hwf, ord, hts⟩
      rw [validateDAG_eq_bind]
      have hce : checkEdges (nodeIdList nodes) edges = .ok () :=
        (checkEdges_ok_iff _ edges).mpr hwf
      rw [hce]
      apply validateCyclesGo_complete edges (nodeIdList nodes)
      · intro x v hv
        obtain ⟨e, he, hs, ht⟩ := (mem_adjacency edges x v).mp hv
        rw [← ht]
        exact (hwf e he).2
      · exact isTopSort_no_cycle nodes edges ord hts
      · unfold nodeIdList
        rw [List.length_map]
        omega
      · intro n hn
        exact List.mem_map_of_mem _ hn
  · intro hbad
    obtain ⟨x, hx, h | h⟩ := checkEdges_error_naming (nodeIdList nodes) edges hbad
    · refine ⟨x, hx, Or.inl ?_⟩
      rw [validateDAG_eq_bind, h]
    · refine ⟨x, hx, Or.inr ?_⟩
      rw [validateDAG_eq_bind, h]

/-- Witness for C5: the accepted S1 chain yields well-formed edges and a
topological sort; a dangling edge makes the validator name the missing
endpoint. -/
theorem validateDAG_characterisation_witness :
    (EdgesWellFormed chainWorkflow.nodes chainWorkflow.edges ∧
      TopSortExists chainWorkflow.nodes chainWorkflow.edges) ∧
    (∃ x, x ∉ nodeIdList [⟨"A", .input, "", {}⟩] ∧
      (validateDAG [⟨"A", .input, "", {}⟩] [⟨"e", "A", "X"⟩] =
        .error ("Edge references non-existent source node: " ++ x) ∨
       validateDAG [⟨"A", .input, "", {}⟩] [⟨"e", "A", "X"⟩] =
        .error ("Edge references non-existent target node: " ++ x))) :=
  ⟨(validateDAG_characterisation chainWorkflow.nodes chainWorkflow.edges).1.mp rfl,
   (validateDAG_characterisation [⟨"A", .input, "", {}⟩] [⟨"e", "A", "X"⟩]).2 (by decide)⟩

/-- The in-degree decrement loop subtracts, per target, its number of
occurrences in the target list: the (old || 1) - 1 step is truncated
subtraction by one. -/
theorem decrementTargets_rem (w : Workflow) :
    ∀ (ts : List String) (rem : String → Nat) (q : List DAGNode) (t : String),
      (decrementTargets w ts rem q).1 t = rem t - List.count t ts := by
  intro ts
  induction ts with
  | nil => intro rem q t; simp [decrementTargets]
  | cons t0 rest ih =>
    intro rem q t
    simp only [decrementTargets]
    rw [ih]
    by_cases ht : t = t0
    · by_cases h0 : rem t0 = 0 <;>
        simp [ht, h0, List.count_cons] <;> omega
    · simp [ht, List.count_cons, Ne.symm ht]

/-- Occurrences of t in a node's forward adjacency count the edges from
that node into t. -/
theorem count_adjacency (edges : List DAGEdge) (u t : String) :
    List.count t (adjacency edges u) =
      (edges.filter (fun e => e.source == u && e.target == t)).length := by
  induction edges with
  | nil => rfl
  | cons e rest ih =>
    simp only [adjacency, List.filter_cons] at ih ⊢
    by_cases hs : e.source = u
    · by_cases htg : e.target = t
      · simp [hs, htg, List.count_cons, ih]
      · simp [hs, htg, List.count_cons, ih]
    · simp [hs, List.count_cons, ih]

/-- No decrement has been counted for an empty processed set. -/
theorem countSrc_nil (edges : List DAGEdge) (t : String) : countSrc edges t [] = 0 := by
  induction edges with
  | nil => rfl
  | cons e rest ih => simpa [countSrc, List.filter_cons] using ih

/-- The counted decrements never exceed the in-degree. -/
theorem countSrc_le (edges : List DAGEdge) (t : String) (P : List String) :
    countSrc edges t P ≤ inDeg edges t := by
  refine filter_sub_length _ _ ?_ edges
  intro e he
  simp only [Bool.and_eq_true] at he
  exact he.1

/-- A false boolean is not true (an if_neg feeder). -/
theorem ne_true_of_eq_false {b : Bool} (h : b = false) : ¬(b = true) := by
  intro hh
  rw [h] at hh
  exact Bool.noConfusion hh

/-- Appending a fresh identifier to the processed set adds exactly its
edges into t to the count. -/
theorem countSrc_snoc (edges : List DAGEdge) (t : String) (P : List String) (u : String)
    (hu : u ∉ P) :
    countSrc edges t (P ++ [u]) =
      countSrc edges t P + (edges.filter (fun e => e.source == u && e.target == t)).length := by
  induction edges with
  | nil => rfl
  | cons e rest ih =>
    simp only [countSrc, List.filter_cons] at ih ⊢
    by_cases h1 : e.target = t
    · by_cases h2 : e.source ∈ P
      · have h3 : e.source ∈ P ++ [u] := List.mem_append_left _ h2
        have h4 : e.source ≠ u := fun h => hu (h ▸ h2)
        have hbA : (e.target == t && decide (e.source ∈ P ++ [u])) = true := by
          simp [h1, h3]
        have hbB : (e.target == t && decide (e.source ∈ P)) = true := by
          simp [h1, h2]
        have hbC : (e.source == u && e.target == t) = false := by
          simp [h4]
        rw [if_pos hbA, if_pos hbB, if_neg (ne_true_of_eq_false hbC)]
        simp only [List.length_cons]
        rw [ih]
        omega
      · by_cases h5 : e.source = u
        · have h3 : e.source ∈ P ++ [u] := by
            rw [h5]
            exact List.mem_append_right _ (List.mem_singleton.mpr rfl)
          have hbA : (e.target == t && decide (e.source ∈ P ++ [u])) = true := by
            simp [h1, h3]
          have hbB : (e.target == t && decide (e.source ∈ P)) = false := by
            simp [h2]
          have hbC : (e.source == u && e.target == t) = true := by
            simp [h1, h5]
          rw [if_pos hbA, if_neg (ne_true_of_eq_false hbB), if_pos hbC]
          simp only [List.length_cons]
          rw [ih]
          omega
        · have h3 : e.source ∉ P ++ [u] := by
            intro h
            rcases List.mem_append.mp h with h | h
            · exact h2 h
            · exact h5 (List.mem_singleton.mp h)
          have hbA : (e.target == t && decide (e.source ∈ P ++ [u])) = false := by
            simp [h3]
          have hbB : (e.target == t && decide (e.source ∈ P)) = false := by
            simp [h2]
          have hbC : (e.source == u && e.target == t) = false := by
            simp [h5]
          rw [if_neg (ne_true_of_eq_false hbA), if_neg (ne_true_of_eq_false hbB), if_neg (ne_true_of_eq_false hbC)]
          exact ih
    · have hbA : (e.target == t && decide (e.source ∈ P ++ [u])) = false := by
        simp [h1]
      have hbB : (e.target == t && decide (e.source ∈ P)) = false := by
        simp [h1]
      have hbC : (e.source == u && e.target == t) = false := by
        simp [h1]
      rw [if_neg (ne_true_of_eq_false hbA), if_neg (ne_true_of_eq_false hbB), if_neg (ne_true_of_eq_false hbC)]
      exact ih

/-- The counted decrements plus the edges from a fresh identifier still fit
inside the in-degree. -/
theorem countSrc_disjoint_le (edges : List DAGEdge) (t : String) (P : List String) (u : String)
    (hu : u ∉ P) :
    countSrc edges t P + (edges.filter (fun e => e.source == u && e.target == t)).length ≤
      inDeg edges t := by
  rw [← countSrc_snoc edges t P u hu]
  exact countSrc_le edges t (P ++ [u])

/-- When every in-edge is counted, every in-edge source has been
processed. -/
theorem sourcesIn_of_countSrc_eq (edges : List DAGEdge) (t : String) (P : List String)
    (h : countSrc edges t P = inDeg edges t) :
    SourcesIn edges P t := by
  induction edges with
  | nil =>
    intro e he
    simp at he
  | cons e0 rest ih =>
    have hle : countSrc rest t P ≤ inDeg rest t := countSrc_le rest t P
    intro e he htg
    simp only [countSrc, inDeg, List.filter_cons] at h
    simp only [countSrc, inDeg] at hle
    rcases List.mem_cons.mp he with rfl | he2
    · by_cases hm : e.source ∈ P
      · exact hm
      · exfalso
        simp [htg, hm] at h
        omega
    · refine ih ?_ e he2 htg
      show (rest.filter (fun e => e.target == t && decide (e.source ∈ P))).length =
        (rest.filter (fun e => e.target == t)).length
      by_cases h9 : e0.target = t
      · by_cases hm : e0.source ∈ P
        · simp [h9, hm] at h
          omega
        · simp [h9, hm] at h
          omega
      · simp [h9] at h
        exact h

/-- Queue effect of the in-degree decrement loop: when no target is
decremented below zero, the queue is extended by fresh nodes of the
workflow, each enqueued at the moment its remaining in-degree reached
exactly zero (positive before, consumed by its occurrence count), and no
node is enqueued twice. -/
theorem decrementTargets_queue (w : Workflow) :
    ∀ (ts : List String) (rem : String → Nat) (q : List DAGNode),
      (∀ t, List.count t ts ≤ rem t) →
      ∃ adds, (decrementTargets w ts rem q).2 = q ++ adds ∧
        (∀ n ∈ adds, n ∈ w.nodes) ∧
        (∀ n ∈ adds, 0 < rem n.id ∧ rem n.id ≤ List.count n.id ts) ∧
        (adds.map (fun n => n.id)).Nodup := by
  intro ts
  induction ts with
  | nil =>
    intro rem q hcount
    refine ⟨[], by simp [decrementTargets], by simp, by simp, List.nodup_nil⟩
  | cons t0 rest ih =>
    intro rem q hcount
    have hself : 1 ≤ List.count t0 (t0 :: rest) := by simp [List.count_cons]
    have hpos : 1 ≤ rem t0 := le_trans hself (hcount t0)
    have hne0 : ¬(rem t0 = 0) := by omega
    have hcount1 : ∀ t, List.count t rest ≤ (if t = t0 then rem t0 - 1 else rem t) := by
      intro t
      by_cases ht : t = t0
      · subst ht
        have ha := hcount t
        have hb : List.count t (t :: rest) = List.count t rest + 1 := by
          simp [List.count_cons]
        rw [if_pos rfl]
        omega
      · rw [if_neg ht]
        have ha := hcount t
        have hb : List.count t (t0 :: rest) = List.count t rest := by
          simp [List.count_cons, Ne.symm ht]
        omega
    have hcc : ∀ t, t ≠ t0 → List.count t (t0 :: rest) = List.count t rest := by
      intro t ht
      simp [List.count_cons, Ne.symm ht]
    have hcs : List.count t0 (t0 :: rest) = List.count t0 rest + 1 := by
      simp [List.count_cons]
    simp only [decrementTargets]
    rw [if_neg hne0]
    by_cases hdeg : rem t0 - 1 = 0
    · rw [if_pos hdeg]
      cases hfind : w.nodes.find? (fun m => m.id == t0) with
      | none =>
        obtain ⟨adds, heq, hmem, hfresh, hnd⟩ :=
          ih (fun x => if x = t0 then rem t0 - 1 else rem x) q hcount1
        refine ⟨adds, heq, hmem, ?_, hnd⟩
        intro n hn
        obtain ⟨hp, hle⟩ := hfresh n hn
        by_cases hnt : n.id = t0
        · rw [if_pos hnt] at hp
          omega
        · rw [if_neg hnt] at hp hle
          rw [hcc n.id hnt]
          exact ⟨hp, hle⟩
      | some m =>
        have hmid : m.id = t0 := by
          have := List.find?_some hfind
          simpa using this
        obtain ⟨adds, heq, hmem, hfresh, hnd⟩ :=
          ih (fun x => if x = t0 then rem t0 - 1 else rem x) (q ++ [m]) hcount1
        refine ⟨m :: adds, ?_, ?_, ?_, ?_⟩
        · rw [heq, List.append_assoc]
          rfl
        · intro n hn
          rcases List.mem_cons.mp hn with rfl | hn2
          · exact List.mem_of_find?_eq_some hfind
          · exact hmem n hn2
        · intro n hn
          rcases List.mem_cons.mp hn with rfl | hn2
          · rw [hmid]
            constructor
            · omega
            · omega
          · obtain ⟨hp, hle⟩ := hfresh n hn2
            by_cases hnt : n.id = t0
            · rw [if_pos hnt] at hp
              omega
            · rw [if_neg hnt] at hp hle
              rw [hcc n.id hnt]
              exact ⟨hp, hle⟩
        · rw [List.map_cons, List.nodup_cons]
          refine ⟨?_, hnd⟩
          intro hmm
          obtain ⟨n, hn, hni⟩ := List.mem_map.mp hmm
          obtain ⟨hp, _⟩ := hfresh n hn
          rw [hni, hmid, if_pos rfl] at hp
          omega
    · rw [if_neg hdeg]
      obtain ⟨adds, heq, hmem, hfresh, hnd⟩ :=
        ih (fun x => if x = t0 then rem t0 - 1 else rem x) q hcount1
      refine ⟨adds, heq, hmem, ?_, hnd⟩
      intro n hn
      obtain ⟨hp, hle⟩ := hfresh n hn
      by_cases hnt : n.id = t0
      · rw [if_pos hnt] at hp hle
        rw [hnt] at hle
        rw [hnt, hcs]
        omega
      · rw [if_neg hnt] at hp hle
        rw [hcc n.id hnt]
        exact ⟨hp, hle⟩

/-- Output recording at a fulfilled, non-skipped member: record and move on. -/
theorem applyOutputs_cons_ok (outputs : List (String × Value)) (r : NodeResult)
    (rest : List NodeResult) (v : Value) (hok : r.result = .ok v) (hsk : r.skipped = false) :
    applyOutputs outputs (r :: rest) = applyOutputs (objSet outputs r.node.id v) rest := by
  obtain ⟨rn, rres, rsk⟩ := r
  change rres = Except.ok v at hok
  change rsk = false at hsk
  subst hok
  subst hsk
  rfl

/-- Output recording skips a skipped member. -/
theorem applyOutputs_cons_skip (outputs : List (String × Value)) (r : NodeResult)
    (rest : List NodeResult) (hsk : r.skipped = true) :
    applyOutputs outputs (r :: rest) = applyOutputs outputs rest := by
  obtain ⟨rn, rres, rsk⟩ := r
  change rsk = true at hsk
  subst hsk
  cases rres <;> rfl

/-- Output recording ignores a rejected member. -/
theorem applyOutputs_cons_err (outputs : List (String × Value)) (r : NodeResult)
    (rest : List NodeResult) (e : String) (herr : r.result = .error e) :
    applyOutputs outputs (r :: rest) = applyOutputs outputs rest := by
  obtain ⟨rn, rres, rsk⟩ := r
  change rres = Except.error e at herr
  subst herr
  rfl

/-- Recording batch outputs never removes a recorded output. -/
theorem applyOutputs_isSome_mono (rs : List NodeResult) :
    ∀ (outputs : List (String × Value)) (s : String),
      (objGet outputs s).isSome = true →
      (objGet (applyOutputs outputs rs) s).isSome = true := by
  induction rs with
  | nil =>
    intro outputs s h
    exact h
  | cons r rest ih =>
    intro outputs s h
    cases hr : r.result with
    | ok v =>
      by_cases hsk : r.skipped = true
      · rw [applyOutputs_cons_skip outputs r rest hsk]
        exact ih outputs s h
      · rw [applyOutputs_cons_ok outputs r rest v hr (Bool.eq_false_iff.mpr hsk)]
        refine ih _ s ?_
        rw [objGet_objSet]
        by_cases hx : s = r.node.id
        · rw [if_pos hx]
          rfl
        · rw [if_neg hx]
          exact h
    | error e =>
      rw [applyOutputs_cons_err outputs r rest e hr]
      exact ih outputs s h

/-- A fulfilled, non-skipped member's output is recorded after the batch. -/
theorem applyOutputs_covers (rs : List NodeResult) :
    ∀ (outputs : List (String × Value)) (r : NodeResult) (v : Value),
      r ∈ rs → r.result = .ok v → r.skipped = false →
      (objGet (applyOutputs outputs rs) r.node.id).isSome = true := by
  induction rs with
  | nil =>
    intro outputs r v hr
    exact absurd hr (List.not_mem_nil r)
  | cons r0 rest ih =>
    intro outputs r v hr hok hsk
    rcases List.mem_cons.mp hr with rfl | hr2
    · rw [applyOutputs_cons_ok outputs r rest v hok hsk]
      refine applyOutputs_isSome_mono rest _ _ ?_
      rw [objGet_objSet, if_pos rfl]
      rfl
    · cases hr0 : r0.result with
      | ok v0 =>
        by_cases hsk0 : r0.skipped = true
        · rw [applyOutputs_cons_skip outputs r0 rest hsk0]
          exact ih outputs r v hr2 hok hsk
        · rw [applyOutputs_cons_ok outputs r0 rest v0 hr0 (Bool.eq_false_iff.mpr hsk0)]
          exact ih _ r v hr2 hok hsk
      | error e =>
        rw [applyOutputs_cons_err outputs r0 rest e hr0]
        exact ih outputs r v hr2 hok hsk

/-- A recorded output after the batch was recorded before it or belongs to
a fulfilled, non-skipped batch member. -/
theorem applyOutputs_isSome_inv (rs : List NodeResult) :
    ∀ (outputs : List (String × Value)) (s : String),
      (objGet (applyOutputs outputs rs) s).isSome = true →
      (objGet outputs s).isSome = true ∨
        ∃ r, r ∈ rs ∧ ∃ v, r.node.id = s ∧ r.result = .ok v ∧ r.skipped = false := by
  induction rs with
  | nil =>
    intro outputs s h
    exact Or.inl h
  | cons r rest ih =>
    intro outputs s h
    cases hr : r.result with
    | ok v =>
      by_cases hsk : r.skipped = true
      · rw [applyOutputs_cons_skip outputs r rest hsk] at h
        rcases ih outputs s h with h3 | ⟨r2, hr2, v2, hid, hok2, hsk2⟩
        · exact Or.inl h3
        · exact Or.inr ⟨r2, List.mem_cons_of_mem r hr2, v2, hid, hok2, hsk2⟩
      · rw [applyOutputs_cons_ok outputs r rest v hr (Bool.eq_false_iff.mpr hsk)] at h
        rcases ih _ s h with h3 | ⟨r2, hr2, v2, hid, hok2, hsk2⟩
        · rw [objGet_objSet] at h3
          by_cases hx : s = r.node.id
          · exact Or.inr ⟨r, List.mem_cons_self r rest, v, hx.symm, hr,
              Bool.eq_false_iff.mpr hsk⟩
          · rw [if_neg hx] at h3
            exact Or.inl h3
        · exact Or.inr ⟨r2, List.mem_cons_of_mem r hr2, v2, hid, hok2, hsk2⟩
    | error e =>
      rw [applyOutputs_cons_err outputs r rest e hr] at h
      rcases ih outputs s h with h3 | ⟨r2, hr2, v2, hid, hok2, hsk2⟩
      · exact Or.inl h3
      · exact Or.inr ⟨r2, List.mem_cons_of_mem r hr2, v2, hid, hok2, hsk2⟩

/-- Batch dispatch preserves the drained queue's identifiers. -/
theorem batchCompute_ids (d : Oracle) (rex : RegexCompile) (w : Workflow) (input : Value)
    (outputs : List (String × Value)) :
    ∀ (queue : List DAGNode),
      (batchCompute d rex w input outputs queue).map (fun r => r.node.id) =
        queue.map (fun n => n.id) := by
  intro queue
  induction queue with
  | nil => rfl
  | cons n rest ih =>
    simp only [batchCompute, List.map_cons] at ih ⊢
    rw [ih]
    cases hobj : objGet outputs n.id <;> rfl

/-- A member taking the skip path already had a recorded output at batch
start. -/
theorem batchCompute_skipped_isSome (d : Oracle) (rex : RegexCompile) (w : Workflow)
    (input : Value) (outputs : List (String × Value)) (queue : List DAGNode) :
    ∀ r ∈ batchCompute d rex w input outputs queue, r.skipped = true →
      (objGet outputs r.node.id).isSome = true := by
  intro r hr hsk
  unfold batchCompute at hr
  rw [List.mem_map] at hr
  obtain ⟨n, hn, hrn⟩ := hr
  cases hobj : objGet outputs n.id with
  | some v =>
    rw [hobj] at hrn
    rw [← hrn]
    rw [hobj]
    rfl
  | none =>
    rw [hobj] at hrn
    rw [← hrn] at hsk
    exact Bool.noConfusion hsk

/-- Every drained node's output is recorded after a batch all of whose
members were fulfilled. -/
theorem batchCompute_settles (d : Oracle) (rex : RegexCompile) (w : Workflow) (input : Value)
    (outputs : List (String × Value)) (queue : List DAGNode)
    (hok : ∀ r ∈ batchCompute d rex w input outputs queue, ∃ v, r.result = Except.ok v) :
    ∀ n ∈ queue,
      (objGet (applyOutputs outputs (batchCompute d rex w input outputs queue)) n.id).isSome
        = true := by
  intro n hn
  have hrmem : (match objGet outputs n.id with
      | some v => (⟨n, .ok v, true⟩ : NodeResult)
      | none => ⟨n, dispatchNode d rex input n (gatherInputs w outputs input n), false⟩) ∈
      batchCompute d rex w input outputs queue := by
    unfold batchCompute
    exact List.mem_map_of_mem _ hn
  cases hobj : objGet outputs n.id with
  | some v =>
    rw [hobj] at hrmem
    refine applyOutputs_isSome_mono _ outputs n.id ?_
    rw [hobj]
    rfl
  | none =>
    rw [hobj] at hrmem
    obtain ⟨v, hv⟩ := hok _ hrmem
    exact applyOutputs_covers _ outputs _ v hrmem hv rfl

/-- A source set extension preserves SourcesIn. -/
theorem sourcesIn_mono (edges : List DAGEdge) (S S2 : List String) (n : String)
    (hsub : ∀ x, x ∈ S → x ∈ S2) (h : SourcesIn edges S n) : SourcesIn edges S2 n := by
  intro e he ht
  exact hsub _ (h e he ht)

/-- The empty trace is trivially topologically respectful. -/
theorem traceOK_nil (w : Workflow) (S0 : String → Prop) : TraceOK w S0 [] := by
  intro e he j ty hj
  simp at hj

/-- Topological respect is monotone in the initially-settled predicate. -/
theorem traceOK_mono (w : Workflow) (S0 S1 : String → Prop) (l : List Event)
    (hS : ∀ s, S0 s → S1 s) (h : TraceOK w S0 l) : TraceOK w S1 l := by
  intro e he j ty hj
  rcases h e he j ty hj with h1 | h1
  · exact Or.inl (hS _ h1)
  · exact Or.inr h1

/-- Concatenation law for topological respect: a respectful block followed
by a block respectful relative to that block's completions is respectful. -/
theorem traceOK_append (w : Workflow) (S0 : String → Prop) (l1 l2 : List Event)
    (h1 : TraceOK w S0 l1)
    (h2 : TraceOK w (fun s => S0 s ∨ ∃ v, Event.nodeComplete s v ∈ l1) l2) :
    TraceOK w S0 (l1 ++ l2) := by
  intro e he j ty hj
  by_cases hjl : j < l1.length
  · rw [List.get?_append hjl] at hj
    rcases h1 e he j ty hj with h | ⟨i, v, hij, hi⟩
    · exact Or.inl h
    · refine Or.inr ⟨i, v, hij, ?_⟩
      rw [List.get?_append (lt_trans hij hjl)]
      exact hi
  · push_neg at hjl
    rw [List.get?_append_right hjl] at hj
    rcases h2 e he (j - l1.length) ty hj with h | ⟨i, v, hij, hi⟩
    · rcases h with h | ⟨v, hv⟩
      · exact Or.inl h
      · obtain ⟨i, hi⟩ := List.mem_iff_get?.mp hv
        have hil : i < l1.length := by
          by_contra hc
          push_neg at hc
          rw [List.get?_eq_none.mpr hc] at hi
          exact Option.noConfusion hi
        refine Or.inr ⟨i, v, by omega, ?_⟩
        rw [List.get?_append hil]
        exact hi
    · refine Or.inr ⟨l1.length + i, v, by omega, ?_⟩
      rw [List.get?_append_right (by omega)]
      have hr : l1.length + i - l1.length = i := by omega
      rw [hr]
      exact hi

/-- A single batch's events are topologically respectful: every started
member was ready at batch dispatch. -/
theorem traceOK_batch (w : Workflow) (outputs : List (String × Value)) (rs : List NodeResult)
    (hready : ∀ r ∈ rs, r.skipped = false → ReadyFull w.edges outputs r.node.id) :
    TraceOK w (fun s => (objGet outputs s).isSome = true)
      (batchPrefixEvents rs ++ batchAsyncEvents rs) := by
  intro e he j ty hj
  have hmem : Event.nodeStart e.target ty ∈ batchPrefixEvents rs ++ batchAsyncEvents rs :=
    List.get?_mem hj
  rcases List.mem_append.mp hmem with hmem | hmem
  · obtain ⟨r, hr, hsk, hid, _⟩ := batchPrefixEvents_start_inv rs e.target ty hmem
    exact Or.inl (hready r hr hsk e he hid.symm)
  · exact absurd hmem (batchAsyncEvents_no_start rs e.target ty)

/-- Invariant preservation of the settlement loop: starting from remaining
in-degrees complementing the decrements of the processed set P, with fresh
batch and accumulator identifiers all drained to zero remaining in-degree,
a successful pass extends the bookkeeping to P plus the batch, and every
node of the produced queue has all upstream sources in that extended
processed set. -/
theorem processResults_inv (w : Workflow) :
    ∀ (rs : List NodeResult) (rem : String → Nat) (qacc : List DAGNode) (P : List String)
      (rem2 : String → Nat) (q2 : List DAGNode),
      (∀ t, rem t + countSrc w.edges t P = inDeg w.edges t) →
      (P ++ (rs.map (fun r => r.node.id) ++ qacc.map (fun n => n.id))).Nodup →
      (∀ p, p ∈ P ∨ p ∈ rs.map (fun r => r.node.id) ∨ p ∈ qacc.map (fun n => n.id) →
        rem p = 0) →
      (∀ n ∈ qacc, n ∈ w.nodes) →
      (∀ n ∈ qacc, SourcesIn w.edges P n.id) →
      processResults w rs rem qacc = .ok (rem2, q2) →
      (∀ t, rem2 t + countSrc w.edges t (P ++ rs.map (fun r => r.node.id)) =
        inDeg w.edges t) ∧
      ((P ++ rs.map (fun r => r.node.id)) ++ q2.map (fun n => n.id)).Nodup ∧
      (∀ p, p ∈ P ++ rs.map (fun r => r.node.id) ∨ p ∈ q2.map (fun n => n.id) →
        rem2 p = 0) ∧
      (∀ n ∈ q2, n ∈ w.nodes) ∧
      (∀ n ∈ q2, SourcesIn w.edges (P ++ rs.map (fun r => r.node.id)) n.id) := by
  intro rs
  induction rs with
  | nil =>
    intro rem qacc P rem2 q2 hI1 hnd hzero hmem hready heq
    have heq2 : (rem, qacc) = (rem2, q2) := by
      injection heq
    rw [Prod.mk.injEq] at heq2
    obtain ⟨h1, h2⟩ := heq2
    subst h1
    subst h2
    refine ⟨?_, ?_, ?_, hmem, ?_⟩
    · intro t
      simpa using hI1 t
    · simpa using hnd
    · intro p hp
      refine hzero p ?_
      rcases hp with hp | hp
      · simp only [List.map_nil, List.append_nil] at hp
        exact Or.inl hp
      · exact Or.inr (Or.inr hp)
    · intro n hn
      simpa using hready n hn
  | cons r rest ih =>
    intro rem qacc P rem2 q2 hI1 hnd hzero hmem hready heq
    cases hr : r.result with
    | error e =>
      rw [processResults_cons_err w r rest rem qacc e hr] at heq
      exact Except.noConfusion heq
    | ok v =>
      rw [processResults_cons_ok w r rest rem qacc v hr] at heq
      have hnd2 := hnd
      rw [List.map_cons, List.cons_append, List.nodup_append] at hnd2
      obtain ⟨hndP, hndT, hdisjPT⟩ := hnd2
      have hrP : r.node.id ∉ P := fun hin => hdisjPT hin (List.mem_cons_self _ _)
      have hcnt : ∀ t, List.count t (adjacency w.edges r.node.id) ≤ rem t := by
        intro t
        rw [count_adjacency]
        have h1 := countSrc_disjoint_le w.edges t P r.node.id hrP
        have h2 := hI1 t
        omega
      obtain ⟨adds, haddq, haddmem, haddfresh, haddnd⟩ :=
        decrementTargets_queue w (adjacency w.edges r.node.id) rem qacc hcnt
      have hrem1 : ∀ t, (decrementTargets w (adjacency w.edges r.node.id) rem qacc).1 t =
          rem t - List.count t (adjacency w.edges r.node.id) :=
        fun t => decrementTargets_rem w (adjacency w.edges r.node.id) rem qacc t
      have hI1' : ∀ t, (decrementTargets w (adjacency w.edges r.node.id) rem qacc).1 t +
          countSrc w.edges t (P ++ [r.node.id]) = inDeg w.edges t := by
        intro t
        rw [hrem1 t, countSrc_snoc w.edges t P r.node.id hrP, count_adjacency]
        have h1 := countSrc_disjoint_le w.edges t P r.node.id hrP
        have h2 := hI1 t
        omega
      have hzeroS : ∀ a, a ∈ P ++ (r.node.id :: (List.map (fun r => r.node.id) rest ++
          List.map (fun n => n.id) qacc)) → rem a = 0 := by
        intro a ha
        rcases List.mem_append.mp ha with ha | ha
        · exact hzero a (Or.inl ha)
        · rcases List.mem_cons.mp ha with rfl | ha
          · refine hzero _ (Or.inr (Or.inl ?_))
            rw [List.map_cons]
            exact List.mem_cons_self _ _
          · rcases List.mem_append.mp ha with ha | ha
            · refine hzero a (Or.inr (Or.inl ?_))
              rw [List.map_cons]
              exact List.mem_cons_of_mem _ ha
            · exact hzero a (Or.inr (Or.inr ha))
      have hdisjD : (P ++ (r.node.id :: (List.map (fun r => r.node.id) rest ++
          List.map (fun n => n.id) qacc))).Disjoint (adds.map (fun n => n.id)) := by
        intro a haS haD
        obtain ⟨n, hn, hni⟩ := List.mem_map.mp haD
        obtain ⟨hp, _⟩ := haddfresh n hn
        rw [hni] at hp
        have := hzeroS a haS
        omega
      have hndBig : ((P ++ (r.node.id :: (List.map (fun r => r.node.id) rest ++
          List.map (fun n => n.id) qacc))) ++ adds.map (fun n => n.id)).Nodup := by
        rw [List.nodup_append]
        refine ⟨?_, haddnd, hdisjD⟩
        rw [List.map_cons, List.cons_append] at hnd
        exact hnd
      have hndIH : ((P ++ [r.node.id]) ++ (List.map (fun r => r.node.id) rest ++
          (List.map (fun n => n.id) qacc ++ adds.map (fun n => n.id)))).Nodup := by
        have h := hndBig
        simp only [List.append_assoc, List.cons_append, List.singleton_append] at h ⊢
        exact h
      have hndIH2 : ((P ++ [r.node.id]) ++ (List.map (fun r => r.node.id) rest ++
          List.map (fun n => n.id)
            (decrementTargets w (adjacency w.edges r.node.id) rem qacc).2)).Nodup := by
        rw [haddq, List.map_append]
        exact hndIH
      have hzero' : ∀ p, p ∈ P ++ [r.node.id] ∨ p ∈ List.map (fun r => r.node.id) rest ∨
          p ∈ List.map (fun n => n.id)
            (decrementTargets w (adjacency w.edges r.node.id) rem qacc).2 →
          (decrementTargets w (adjacency w.edges r.node.id) rem qacc).1 p = 0 := by
        intro p hp
        rw [hrem1 p]
        rcases hp with hp | hp | hp
        · rcases List.mem_append.mp hp with hp | hp
          · have := hzero p (Or.inl hp)
            omega
          · rw [List.mem_singleton] at hp
            subst hp
            have : rem r.node.id = 0 := by
              refine hzero _ (Or.inr (Or.inl ?_))
              rw [List.map_cons]
              exact List.mem_cons_self _ _
            omega
        · have : rem p = 0 := by
            refine hzero p (Or.inr (Or.inl ?_))
            rw [List.map_cons]
            exact List.mem_cons_of_mem _ hp
          omega
        · rw [haddq, List.map_append] at hp
          rcases List.mem_append.mp hp with hp | hp
          · have := hzero p (Or.inr (Or.inr hp))
            omega
          · obtain ⟨n, hn, hni⟩ := List.mem_map.mp hp
            obtain ⟨hp1, hp2⟩ := haddfresh n hn
            subst hni
            omega
      have hmem' : ∀ n ∈ (decrementTargets w (adjacency w.edges r.node.id) rem qacc).2,
          n ∈ w.nodes := by
        intro n hn
        rw [haddq] at hn
        rcases List.mem_append.mp hn with hn | hn
        · exact hmem n hn
        · exact haddmem n hn
      have hready' : ∀ n ∈ (decrementTargets w (adjacency w.edges r.node.id) rem qacc).2,
          SourcesIn w.edges (P ++ [r.node.id]) n.id := by
        intro n hn
        rw [haddq] at hn
        rcases List.mem_append.mp hn with hn | hn
        · exact sourcesIn_mono w.edges P _ n.id (fun x hx => List.mem_append_left _ hx)
            (hready n hn)
        · obtain ⟨hp1, hp2⟩ := haddfresh n hn
          refine sourcesIn_of_countSrc_eq w.edges n.id (P ++ [r.node.id]) ?_
          have h1 := hI1' n.id
          rw [hrem1 n.id] at h1
          omega
      obtain ⟨c1, c2, c3, c4, c5⟩ :=
        ih (decrementTargets w (adjacency w.edges r.node.id) rem qacc).1
          (decrementTargets w (adjacency w.edges r.node.id) rem qacc).2 (P ++ [r.node.id])
          rem2 q2 hI1' hndIH2 hzero' hmem' hready' heq
      have hPeq : (P ++ [r.node.id]) ++ List.map (fun r => r.node.id) rest =
          P ++ List.map (fun r => r.node.id) (r :: rest) := by
        rw [List.map_cons, List.append_assoc, List.singleton_append]
      refine ⟨?_, ?_, ?_, c4, ?_⟩
      · intro t
        have h := c1 t
        rw [hPeq] at h
        exact h
      · rw [← hPeq]
        exact c2
      · intro p hp
        refine c3 p ?_
        rw [hPeq]
        exact hp
      · intro n hn
        have h := c5 n hn
        rw [hPeq] at h
        exact h

/-- The scheduling loop's trace is topologically respectful relative to
the outputs recorded at loop entry, given the scheduling invariants: the
remaining in-degrees complement the decrements of the processed set P,
processed and queued identifiers are mutually fresh and drained to zero,
queued nodes are known and ready, and processed nodes are settled. -/
theorem runDAGLoop_topo (d : Oracle) (rex : RegexCompile) (w : Workflow) (input : Value)
    (stopAt : Nat → Bool) :
    ∀ (fuel k : Nat) (rem : String → Nat) (outputs : List (String × Value))
      (queue : List DAGNode) (P : List String),
      (∀ t, rem t + countSrc w.edges t P = inDeg w.edges t) →
      (P ++ queue.map (fun n => n.id)).Nodup →
      (∀ p, p ∈ P ∨ p ∈ queue.map (fun n => n.id) → rem p = 0) →
      (∀ n ∈ queue, n ∈ w.nodes) →
      (∀ p ∈ P, (objGet outputs p).isSome = true) →
      (∀ n ∈ queue, ReadyFull w.edges outputs n.id) →
      TraceOK w (fun s => (objGet outputs s).isSome = true)
        (runDAGLoop d rex w input stopAt fuel k rem outputs queue).1 := by
  intro fuel
  induction fuel with
  | zero =>
    intro k rem outputs queue P hI1 hnd hzero hmem hsettled hready
    exact traceOK_nil w _
  | succ f ihf =>
    intro k rem outputs queue P hI1 hnd hzero hmem hsettled hready
    by_cases hstop : (queue.isEmpty || stopAt k) = true
    · have hred : runDAGLoop d rex w input stopAt (f + 1) k rem outputs queue =
          ([], if stopAt k then .error ("Execution stopped") else .ok outputs) := by
        simp only [runDAGLoop]
        rw [if_pos hstop]
      rw [hred]
      exact traceOK_nil w _
    · rw [runDAGLoop_succ_eq d rex w input stopAt f k rem outputs queue hstop]
      have hreadyrs : ∀ r ∈ batchCompute d rex w input outputs queue, r.skipped = false →
          ReadyFull w.edges outputs r.node.id := by
        intro r hrr _
        exact hready r.node (batchCompute_node_mem d rex w input outputs queue r hrr)
      cases hproc : processResults w (batchCompute d rex w input outputs queue) rem [] with
      | error e =>
        exact traceOK_batch w outputs _ hreadyrs
      | ok pr =>
        obtain ⟨rem1, queue1⟩ := pr
        have hok : ∀ r2 ∈ batchCompute d rex w input outputs queue,
            ∃ v2, r2.result = Except.ok v2 :=
          processResults_ok_all_ok w _ rem [] (rem1, queue1) hproc
        have hids : (batchCompute d rex w input outputs queue).map (fun r => r.node.id) =
            queue.map (fun n => n.id) := batchCompute_ids d rex w input outputs queue
        obtain ⟨c1, c2, c3, c4, c5⟩ :=
          processResults_inv w (batchCompute d rex w input outputs queue) rem [] P rem1 queue1
            hI1
            (by simp only [List.map_nil, List.append_nil]
                rw [hids]
                exact hnd)
            (by intro p hp
                rcases hp with hp | hp | hp
                · exact hzero p (Or.inl hp)
                · rw [hids] at hp
                  exact hzero p (Or.inr hp)
                · simp at hp)
            (by intro n hn
                exact absurd hn (List.not_mem_nil n))
            (by intro n hn
                exact absurd hn (List.not_mem_nil n))
            hproc
        have hsettledn : ∀ p ∈ P ++ (batchCompute d rex w input outputs queue).map
              (fun r => r.node.id),
            (objGet (applyOutputs outputs (batchCompute d rex w input outputs queue)) p).isSome
              = true := by
          intro p hp
          rcases List.mem_append.mp hp with hp | hp
          · exact applyOutputs_isSome_mono _ outputs p (hsettled p hp)
          · rw [hids] at hp
            obtain ⟨n, hn, hni⟩ := List.mem_map.mp hp
            rw [← hni]
            exact batchCompute_settles d rex w input outputs queue hok n hn
        have hreadyn : ∀ n ∈ queue1, ReadyFull w.edges
            (applyOutputs outputs (batchCompute d rex w input outputs queue)) n.id := by
          intro n hn e he ht
          exact hsettledn _ (c5 n hn e he ht)
        refine traceOK_append w _ _ _ (traceOK_batch w outputs _ hreadyrs) ?_
        refine traceOK_mono w _ _ _ ?_
          (ihf (k + 1) rem1 (applyOutputs outputs (batchCompute d rex w input outputs queue))
            queue1 (P ++ (batchCompute d rex w input outputs queue).map (fun r => r.node.id))
            c1 c2 c3 c4 hsettledn hreadyn)
        intro s hs
        rcases applyOutputs_isSome_inv _ outputs s hs with h | ⟨r2, hr2, v2, hid, hok2, hsk2⟩
        · exact Or.inl h
        · refine Or.inr ⟨v2, ?_⟩
          rw [← hid]
          exact complete_mem_batch _ r2 v2 hr2 hok2 hsk2

/-- The pre-seeded output table of DAGRunner.run, read back: the lookup is
the execution input exactly for the identifiers of the seeded nodes. -/
theorem objGet_preSeed (input : Value) (ls : List DAGNode) (s : String) :
    objGet (ls.foldl (fun acc n => objSet acc n.id input) []) s =
      (ls.reverse.find? (fun n => n.id == s)).map (fun _ => input) :=
  objGet_foldl_objSet_nil (fun n => n.id) (fun _ => input) ls s

/-- C2.  Amended topological respect: in any run of a workflow whose node
identifiers are distinct, whenever a node is started, each upstream source
across an edge into it either is a pre-seeded input-kind start node — which,
contrary to the claim as stated, emits no node:complete event at all — or
has emitted node:complete strictly earlier in the trace.  The companion
counterexample input_node_emits_no_complete refutes the unconditional
phrasing of the claim on a completed input → output run. -/
theorem edge_complete_precedes_start (d : Oracle) (rex : RegexCompile) (w : Workflow)
    (input : Value) (stopAt : Nat → Bool) (hnodup : (nodeIdList w.nodes).Nodup) :
    ∀ e ∈ w.edges, ∀ j ty,
      (runDAG d rex w input stopAt).1.get? j = some (Event.nodeStart e.target ty) →
      e.source ∈ preSeedIds w ∨
        ∃ i v, i < j ∧ (runDAG d rex w input stopAt).1.get? i =
          some (Event.nodeComplete e.source v) := by
  rw [runDAG_eq]
  by_cases hs : (w.nodes.filter (fun n => inDeg w.edges n.id == 0)).isEmpty = true
  · rw [if_pos hs]
    intro e he j ty hj
    simp at hj
  · rw [if_neg hs]
    have hI10 : ∀ t, (fun t => inDeg w.edges t) t + countSrc w.edges t [] =
        inDeg w.edges t := by
      intro t
      rw [countSrc_nil]
      simp
    have hnd0 : (([] : List String) ++
        (w.nodes.filter (fun n => inDeg w.edges n.id == 0)).map (fun n => n.id)).Nodup := by
      rw [List.nil_append]
      exact hnodup.sublist (List.Sublist.map _ (List.filter_sublist w.nodes))
    have hzero0 : ∀ p, p ∈ ([] : List String) ∨
        p ∈ (w.nodes.filter (fun n => inDeg w.edges n.id == 0)).map (fun n => n.id) →
        (fun t => inDeg w.edges t) p = 0 := by
      intro p hp
      rcases hp with hp | hp
      · exact absurd hp (List.not_mem_nil p)
      · obtain ⟨n, hn, hni⟩ := List.mem_map.mp hp
        rw [List.mem_filter] at hn
        have h2 : (inDeg w.edges n.id == 0) = true := hn.2
        rw [← hni]
        simpa using h2
    have hmem0 : ∀ n ∈ w.nodes.filter (fun n => inDeg w.edges n.id == 0), n ∈ w.nodes :=
      fun n hn => (List.mem_filter.mp hn).1
    have hsettled0 : ∀ p ∈ ([] : List String),
        (objGet (((w.nodes.filter (fun n => inDeg w.edges n.id == 0)).filter
          (fun n => n.type == NodeType.input)).foldl
            (fun acc n => objSet acc n.id input) []) p).isSome = true :=
      fun p hp => absurd hp (List.not_mem_nil p)
    have hready0 : ∀ n ∈ w.nodes.filter (fun n => inDeg w.edges n.id == 0),
        ReadyFull w.edges
          (((w.nodes.filter (fun n => inDeg w.edges n.id == 0)).filter
            (fun n => n.type == NodeType.input)).foldl
              (fun acc n => objSet acc n.id input) []) n.id := by
      intro n hn e he ht
      rw [List.mem_filter] at hn
      have h2 : inDeg w.edges n.id = 0 := by simpa using hn.2
      exfalso
      have h3 : e ∈ w.edges.filter (fun e2 => e2.target == n.id) := by
        rw [List.mem_filter]
        exact ⟨he, by simp [ht]⟩
      have h4 : 0 < inDeg w.edges n.id := by
        unfold inDeg
        exact List.length_pos.mpr (List.ne_nil_of_mem h3)
      omega
    have hseed : ∀ s,
        (objGet (((w.nodes.filter (fun n => inDeg w.edges n.id == 0)).filter
          (fun n => n.type == NodeType.input)).foldl
            (fun acc n => objSet acc n.id input) []) s).isSome = true →
        s ∈ preSeedIds w := by
      intro s hsv
      rw [objGet_preSeed] at hsv
      cases hfind : ((w.nodes.filter (fun n => inDeg w.edges n.id == 0)).filter
          (fun n => n.type == NodeType.input)).reverse.find? (fun n => n.id == s) with
      | none =>
        rw [hfind] at hsv
        simp at hsv
      | some n =>
        have hn := List.mem_of_find?_eq_some hfind
        rw [List.mem_reverse] at hn
        have hns : n.id = s := by
          simpa using List.find?_some hfind
        unfold preSeedIds
        rw [← hns]
        exact List.mem_map_of_mem _ hn
    have htr := runDAGLoop_topo d rex w input stopAt (w.nodes.length + 1) 0
      (fun t => inDeg w.edges t)
      (((w.nodes.filter (fun n => inDeg w.edges n.id == 0)).filter
        (fun n => n.type == NodeType.input)).foldl (fun acc n => objSet acc n.id input) [])
      (w.nodes.filter (fun n => inDeg w.edges n.id == 0)) []
      hI10 hnd0 hzero0 hmem0 hsettled0 hready0
    intro e he j ty hj
    rcases htr e he j ty hj with hsrc | hsrc
    · exact Or.inl (hseed _ hsrc)
    · exact Or.inr hsrc

/-- Counterexample for C2 as stated: the input → output run completes (the
engine persists status completed and emits execution:complete), node B
emits node:start, the edge A → B is present, yet no node:complete event
for the pre-seeded input-kind node A is ever emitted — A emits no events
at all, its output is seeded before scheduling begins. -/
theorem input_node_emits_no_complete :
    (⟨"e1", "A", "B"⟩ : DAGEdge) ∈ inputOutputWorkflow.edges ∧
    (runDAG oracleNone rexOkAll inputOutputWorkflow (Value.num 7) neverStop).2 =
      .ok (Value.num 7) ∧
    (runExecution dbInputOutput ("x1") oracleNone rexOkAll inputOutputWorkflow
        (Value.num 7) neverStop).2.2 = EngineEvent.executionComplete (Value.num 7) ∧
    ((getExecution (runExecution dbInputOutput ("x1") oracleNone rexOkAll
        inputOutputWorkflow (Value.num 7) neverStop).1 ("x1")).map
          (fun ex => ex.status)) = some ExecutionStatus.completed ∧
    (∃ ty, Event.nodeStart ("B") ty ∈
      (runDAG oracleNone rexOkAll inputOutputWorkflow (Value.num 7) neverStop).1) ∧
    (∀ v, Event.nodeComplete ("A") v ∉
      (runDAG oracleNone rexOkAll inputOutputWorkflow (Value.num 7) neverStop).1) := by
  have hev : (runDAG oracleNone rexOkAll inputOutputWorkflow (Value.num 7) neverStop).1 =
      [Event.nodeStart ("B") NodeType.output,
       Event.nodeComplete ("B") (Value.num 7)] := rfl
  refine ⟨List.mem_cons_self _ _, rfl, rfl, rfl, ⟨NodeType.output, ?_⟩, ?_⟩
  · rw [hev]
    exact List.mem_cons_self _ _
  · intro v h
    rw [hev] at h
    rcases List.mem_cons.mp h with h2 | h2
    · exact Event.noConfusion h2
    · rcases List.mem_cons.mp h2 with h3 | h3
      · exact Event.noConfusion h3 (fun hAB _ => absurd hAB (by decide))
      · exact absurd h3 (List.not_mem_nil _)

/-- Witness for C2 on the completed S1 chain run: at the edge B → C, node C
starts at trace index 2 and the theorem yields B's earlier completion (B is
not pre-seeded). -/
theorem edge_complete_precedes_start_witness :
    (nodeIdList chainWorkflow.nodes).Nodup ∧
    (⟨"e2", "B", "C"⟩ : DAGEdge) ∈ chainWorkflow.edges ∧
    (runDAG oracleDouble rexOkAll chainWorkflow (Value.num 3) neverStop).1.get? 2 =
      some (Event.nodeStart ("C") NodeType.output) ∧
    (("B") ∈ preSeedIds chainWorkflow ∨
      ∃ i v, i < 2 ∧ (runDAG oracleDouble rexOkAll chainWorkflow (Value.num 3) neverStop).1.get? i =
        some (Event.nodeComplete ("B") v)) :=
  ⟨by decide, List.mem_cons_of_mem _ (List.mem_cons_self _ _), rfl,
   edge_complete_precedes_start oracleDouble rexOkAll chainWorkflow (Value.num 3) neverStop
     (by decide) ⟨"e2", "B", "C"⟩ (List.mem_cons_of_mem _ (List.mem_cons_self _ _)) 2
     NodeType.output rfl⟩

end AGNT
